import Mathlib

/-
  Verification of the lazygit staged-lines engine (pkg/git/patch_modifier.go and
  pkg/gui/staging_panel.go) against its natural-language specification.

  Strings are embedded as lists of characters (the code only ever slices at
  ASCII marker characters, where Go byte slicing and character slicing agree).
  Go errors are embedded as an explicit result type; a Go runtime panic
  (e.g. indexing a nil slice) is a distinct constructor from a returned error.
-/

set_option maxHeartbeats 1000000
set_option maxRecDepth 100000

abbrev Str := List Char

/-- The two-character run that opens and closes a hunk header. -/
def atatStr : Str := ['@', '@']

/-- The three characters that must follow the digit run matched by the Go
regular expressions in updatedHeader. -/
def spAtAtStr : Str := [' ', '@', '@']

/-- Errors returned (as Go error values) by the patch-modifier functions. -/
inductive PatchErr where
  | cantFindHunks
  | cantFindHunk
  | atoiRange
deriving DecidableEq, Repr

/-- Result of a Go function returning a value and an error.  A runtime panic
(such as indexing into a nil slice) is kept distinct from a returned error. -/
inductive GoRes (α : Type) where
  | ok (a : α)
  | err (e : PatchErr)
  | panicked
deriving DecidableEq, Repr

/- ---------------- decimal digit conversions (strconv.Atoi / Itoa) -------- -/

/-- Character of a single decimal digit. -/
def digitChar (d : Nat) : Char :=
  if d = 0 then '0' else if d = 1 then '1' else if d = 2 then '2'
  else if d = 3 then '3' else if d = 4 then '4' else if d = 5 then '5'
  else if d = 6 then '6' else if d = 7 then '7' else if d = 8 then '8' else '9'

/-- Decimal digits of a natural number, most significant first, as produced by
Go strconv.Itoa on a non-negative value.  The first argument only bounds the
recursion depth, so that the definition is structural and computes by kernel
reduction; natToDigits passes the number itself, which always suffices because
the chain of tenfold quotients down to a single digit is never that long. -/
def natToDigitsCore : Nat → Nat → Str → Str
  | 0, n, acc => digitChar (n % 10) :: acc
  | fuel + 1, n, acc =>
    if n < 10 then digitChar (n % 10) :: acc
    else natToDigitsCore fuel (n / 10) (digitChar (n % 10) :: acc)

def natToDigits (n : Nat) : Str := natToDigitsCore n n []

/-- Go strconv.Itoa. -/
def intToDigits (n : Int) : Str :=
  if n < 0 then '-' :: natToDigits n.natAbs else natToDigits n.toNat

/-- Numeric value of a digit character. -/
def charVal (c : Char) : Nat := c.toNat - 48

/-- Value of a run of decimal digits, most significant first. -/
def digitsVal (s : Str) : Nat := s.foldl (fun a c => 10 * a + charVal c) 0

/-- Largest value of a 64-bit Go int. -/
def i64Max : Int := 9223372036854775807

/-- Two's-complement wrap of 64-bit Go int arithmetic. -/
def wrap64 (n : Int) : Int := (n + 2 ^ 63) % 2 ^ 64 - 2 ^ 63

/-- Go strconv.Atoi on a non-empty run of decimal digits: fails only when the
value does not fit in a 64-bit int.  (The patch code only ever calls it on the
digit run captured by a regular expression, which is never empty.) -/
def goAtoi (s : Str) : GoRes Int :=
  if (digitsVal s : Int) ≤ i64Max then GoRes.ok (digitsVal s) else GoRes.err PatchErr.atoiRange

/- ------------- the regular expressions of updatedHeader ------------------ -/

/-- One attempt of the Go regular expression that matches a run of decimal
digits immediately followed by the three characters of spAtAtStr, anchored at
the start of the argument.  Returns the digit run and the text after the
match. -/
def matchNumAtAt (s : Str) : Option (Str × Str) :=
  let run := s.takeWhile Char.isDigit
  let rest := s.dropWhile Char.isDigit
  if run = [] then none
  else if rest.take 3 = spAtAtStr then some (run, rest.drop 3) else none

/-- Go regexp FindStringSubmatch for the pattern of matchNumAtAt: the captured
digit run of the leftmost match, if any. -/
def findFirstNum : Str → Option Str
  | [] => none
  | c :: cs =>
    match matchNumAtAt (c :: cs) with
    | some (run, _) => some run
    | none => findFirstNum cs

/-- Go regexp ReplaceAllString for the pattern of matchNumAtAt: every
non-overlapping leftmost match of a digit run followed by spAtAtStr is replaced
by the given digit run followed by spAtAtStr.  The first numeric argument only
bounds the recursion depth, so that the definition is structural and computes
by kernel reduction; replaceAllNum passes the length of the subject text, which
always suffices because every step consumes at least one character. -/
def replaceAllNumFuel (new : Str) : Nat → Str → Str
  | _, [] => []
  | 0, s => s
  | fuel + 1, c :: cs =>
    if ((c :: cs).takeWhile Char.isDigit ≠ [] ∧
        (((c :: cs).dropWhile Char.isDigit).take 3 = spAtAtStr)) then
      new ++ spAtAtStr ++ replaceAllNumFuel new fuel (((c :: cs).dropWhile Char.isDigit).drop 3)
    else
      c :: replaceAllNumFuel new fuel cs

def replaceAllNum (new : Str) (s : Str) : Str := replaceAllNumFuel new s.length s

/-- pkg/git patch_modifier.go updatedHeader: rewrites the hunk header by adding
lineChanges to the number captured before the closing pair of at-signs.  When
the pattern does not occur, the Go code indexes entry 1 of a nil
FindStringSubmatch result and panics at runtime. -/
def updatedHeader (currentHeader : Str) (lineChanges : Int) : GoRes Str :=
  match findFirstNum currentHeader with
  | none => GoRes.panicked
  | some run =>
    match goAtoi run with
    | GoRes.err e => GoRes.err e
    | GoRes.panicked => GoRes.panicked
    | GoRes.ok prevLength =>
      GoRes.ok (replaceAllNum (intToDigits (wrap64 (prevLength + lineChanges))) currentHeader)

/- ------------- line splitting and joining (strings.Split / Join) --------- -/

/-- Go strings.Split on a single newline separator. -/
def splitNL : Str → List Str
  | [] => [[]]
  | c :: cs =>
    if c = '\n' then [] :: splitNL cs
    else
      match splitNL cs with
      | [] => [[c]]
      | l :: ls => (c :: l) :: ls

/-- Go strings.Join with a single newline separator. -/
def joinNL : List Str → Str
  | [] => []
  | [l] => l
  | l :: ls => l ++ '\n' :: joinNL ls

/- ------------- pkg/git patch_modifier.go ------------------------------- -/

/-- Scan for the first line opening with the two at-signs, carrying the running
index. -/
def getHeaderLengthAux : Nat → List Str → Option Nat
  | _, [] => none
  | i, l :: ls => if l.take 2 = atatStr then some i else getHeaderLengthAux (i + 1) ls

/-- patch_modifier.go getHeaderLength: the index of the first hunk-start line,
or the CantFindHunks error when there is none. -/
def getHeaderLength (patchLines : List Str) : GoRes Nat :=
  match getHeaderLengthAux 0 patchLines with
  | some i => GoRes.ok i
  | none => GoRes.err PatchErr.cantFindHunks

/-- Scan of getHunkStart, carrying the running index and the index of the last
hunk-start line seen so far (initially 0). -/
def getHunkStartAux (lineNumber : Int) : Nat → Nat → List Str → Option Nat
  | _, _, [] => none
  | i, hunkStart, l :: ls =>
    let hs := if l.take 2 = atatStr then i else hunkStart
    if (i : Int) = lineNumber then some hs else getHunkStartAux lineNumber (i + 1) hs ls

/-- patch_modifier.go getHunkStart: the index of the hunk-start line governing
lineNumber, or the CantFindHunk error when the scan never reaches
lineNumber. -/
def getHunkStart (patchLines : List Str) (lineNumber : Int) : GoRes Nat :=
  match getHunkStartAux lineNumber 0 0 patchLines with
  | some hs => GoRes.ok hs
  | none => GoRes.err PatchErr.cantFindHunk

/-- Body walk of getModifiedHunkForSingleLine over the lines after the hunk
header, carrying the absolute index of the current line.  On the next
hunk-start line the Go code appends a line holding a single newline character
and stops.  Returns the collected lines and the running lineChanges total. -/
def singleLineLoop (lineNumber : Int) : Nat → List Str → List Str × Int
  | _, [] => ([], 0)
  | idx, l :: ls =>
    if l.take 2 = atatStr then ([['\n']], 0)
    else if (idx : Int) ≠ lineNumber ∧ l.take 1 = ['-'] then
      let r := singleLineLoop lineNumber (idx + 1) ls
      ((' ' :: l.drop 1) :: r.1, r.2 + 1)
    else if (idx : Int) ≠ lineNumber ∧ l.take 1 = ['+'] then
      let r := singleLineLoop lineNumber (idx + 1) ls
      (r.1, r.2 - 1)
    else
      let r := singleLineLoop lineNumber (idx + 1) ls
      (l :: r.1, r.2)

/-- patch_modifier.go getModifiedHunkForSingleLine: keeps the target line,
demotes every other removal to context, drops every other addition, and
rewrites the hunk header count. -/
def getModifiedHunkForSingleLine (patchLines : List Str) (hunkStart : Nat) (lineNumber : Int) :
    GoRes (List Str) :=
  let header := patchLines.getD hunkStart []
  let body := singleLineLoop lineNumber (hunkStart + 1) (patchLines.drop (hunkStart + 1))
  match updatedHeader header body.2 with
  | GoRes.ok newHeader => GoRes.ok (newHeader :: body.1)
  | GoRes.err e => GoRes.err e
  | GoRes.panicked => GoRes.panicked

/-- Body walk of getModifiedHunkForRemovedLine, carrying the absolute index and
the lastRemovedIndex variable of the source (which feeds a branch whose body is
empty, so it never affects the result). -/
def removedLineLoop (lineNumber : Int) : Nat → Int → List Str → List Str × Int
  | _, _, [] => ([], 0)
  | idx, lastRemovedIndex, l :: ls =>
    if l.take 2 = atatStr then ([['\n']], 0)
    else if (idx : Int) = lineNumber ∧ l.take 1 = ['-'] then
      let r := removedLineLoop lineNumber (idx + 1) (idx : Int) ls
      ((' ' :: l.drop 1) :: r.1, r.2 + 1)
    else if (idx : Int) = lineNumber ∧ l.take 1 = ['+'] then
      let r := removedLineLoop lineNumber (idx + 1) lastRemovedIndex ls
      (r.1, r.2 - 1)
    else
      -- the source also tests here for a leading backslash on the line after the
      -- removed one, but the body of that branch is empty and the line falls
      -- through to the same append below
      let r := removedLineLoop lineNumber (idx + 1) lastRemovedIndex ls
      (l :: r.1, r.2)

/-- patch_modifier.go getModifiedHunkForRemovedLine: rewrites only the target
line (removal demoted to context, addition dropped), passes every other line
through unchanged, and rewrites the hunk header count. -/
def getModifiedHunkForRemovedLine (patchLines : List Str) (hunkStart : Nat) (lineNumber : Int) :
    GoRes (List Str) :=
  let header := patchLines.getD hunkStart []
  let body := removedLineLoop lineNumber (hunkStart + 1) (-1) (patchLines.drop (hunkStart + 1))
  match updatedHeader header body.2 with
  | GoRes.ok newHeader => GoRes.ok (newHeader :: body.1)
  | GoRes.err e => GoRes.err e
  | GoRes.panicked => GoRes.panicked

/-- patch_modifier.go ObtainPatchForLine. -/
def ObtainPatchForLine (patch : Str) (lineNumber : Int) : GoRes Str :=
  let lines := splitNL patch
  match getHeaderLength lines with
  | GoRes.err e => GoRes.err e
  | GoRes.panicked => GoRes.panicked
  | GoRes.ok headerLength =>
    match getHunkStart lines lineNumber with
    | GoRes.err e => GoRes.err e
    | GoRes.panicked => GoRes.panicked
    | GoRes.ok hunkStart =>
      match getModifiedHunkForSingleLine lines hunkStart lineNumber with
      | GoRes.err e => GoRes.err e
      | GoRes.panicked => GoRes.panicked
      | GoRes.ok hunk =>
        GoRes.ok (joinNL (lines.take headerLength) ++ '\n' :: joinNL hunk)

/-- patch_modifier.go ObtainPatchForHunkWithoutLine. -/
def ObtainPatchForHunkWithoutLine (patch : Str) (lineNumber : Int) : GoRes Str :=
  let lines := splitNL patch
  match getHeaderLength lines with
  | GoRes.err e => GoRes.err e
  | GoRes.panicked => GoRes.panicked
  | GoRes.ok headerLength =>
    match getHunkStart lines lineNumber with
    | GoRes.err e => GoRes.err e
    | GoRes.panicked => GoRes.panicked
    | GoRes.ok hunkStart =>
      match getModifiedHunkForRemovedLine lines hunkStart lineNumber with
      | GoRes.err e => GoRes.err e
      | GoRes.panicked => GoRes.panicked
      | GoRes.ok hunk =>
        GoRes.ok (joinNL (lines.take headerLength) ++ '\n' :: joinNL hunk)

/-- Modelled from the spec: pkg/utils is not under src.  Circular next-index
lookup (spec sections 4.2 and 9): the index of the first element strictly
greater than the probe; scanning past the end wraps the answer to index 0,
which callers read as no next element. -/
def firstIdxAbove : List Int → Int → Option Nat
  | [], _ => none
  | n :: ns, x =>
    if x < n then some 0
    else
      match firstIdxAbove ns x with
      | some i => some (i + 1)
      | none => none

/-- Modelled from the spec: pkg/utils NextIndex (see firstIdxAbove). -/
def NextIndex (numbers : List Int) (x : Int) : Nat :=
  match firstIdxAbove numbers x with
  | some i => i
  | none => 0

/-- Modelled from the spec: pkg/utils is not under src.  Circular
previous-index lookup: the index of the last element strictly below the probe,
wrapping to the final index when no element is below.  Spec 4.2 has cycleLine
move the cursor to the previous stageable line strictly before the current one;
at every hunk-lookup call site the probe is a stageable line, which is never
equal to a hunk-start index, so this also realises the previous-or-equal
phrasing of spec 4.1. -/
def lastIdxBelow : List Int → Int → Option Nat
  | [], _ => none
  | n :: ns, x =>
    match lastIdxBelow ns x with
    | some i => some (i + 1)
    | none => if n < x then some 0 else none

/-- Modelled from the spec: pkg/utils PrevIndex (see lastIdxBelow). -/
def PrevIndex (numbers : List Int) (x : Int) : Nat :=
  match lastIdxBelow numbers x with
  | some i => i
  | none => numbers.length - 1

/-- patch_modifier.go ObtainPatchForHunk: file header plus the unmodified hunk
containing currentLine.  Go slice bounds are taken with take and drop; the
out-of-range indexing panics that Go would raise on an empty hunkStarts list
are outside every reachable call and are not modelled. -/
def ObtainPatchForHunk (patch : Str) (hunkStarts : List Int) (currentLine : Int) : GoRes Str :=
  let lines := splitNL patch
  let hunkStartIndex := PrevIndex hunkStarts currentLine
  let hunkStart := hunkStarts.getD hunkStartIndex 0
  let nextHunkStartIndex := NextIndex hunkStarts currentLine
  let hunkEnd : Int :=
    if nextHunkStartIndex = 0 then (lines.length : Int) - 1
    else hunkStarts.getD nextHunkStartIndex 0
  match getHeaderLength lines with
  | GoRes.err e => GoRes.err e
  | GoRes.panicked => GoRes.panicked
  | GoRes.ok headerLength =>
    GoRes.ok (joinNL (lines.take headerLength) ++ '\n' ::
      (joinNL ((lines.take hunkEnd.toNat).drop hunkStart.toNat) ++ ['\n']))

/-- Walk of HunkPatchIsEmpty with its pastHeader flag. -/
def hunkPatchIsEmptyLoop : Bool → List Str → Bool
  | _, [] => true
  | pastHeader, l :: ls =>
    if l.take 2 = atatStr then hunkPatchIsEmptyLoop true ls
    else if pastHeader ∧ (l.take 1 = ['-'] ∨ l.take 1 = ['+']) then false
    else hunkPatchIsEmptyLoop pastHeader ls

/-- patch_modifier.go HunkPatchIsEmpty: true when no line after the first
hunk-start line opens with a change marker. -/
def HunkPatchIsEmpty (patch : Str) : Bool :=
  hunkPatchIsEmptyLoop false (splitNL patch)

/- ------------- pkg/gui staging_panel.go -------------------------------- -/

/-- The staging panel state of gui.State.Panels.Staging.  SelectedLine is an
index into StageableLines and is a Go int, which can go negative when the list
is empty. -/
structure stagingPanelState where
  StageableLines : List Int
  HunkStarts : List Int
  SelectedLine : Int
  Diff : Str
deriving DecidableEq, Repr

/-- The line number under the cursor: StageableLines indexed at SelectedLine.
Reachable callers keep SelectedLine inside the list, where getD agrees with Go
indexing. -/
def currentLineOf (st : stagingPanelState) : Int :=
  st.StageableLines.getD st.SelectedLine.toNat 0

/-- Result of gui.getSelectedFile as consumed by refreshStagingPanel: the
ErrNoFiles error, any other error, or a file with its unstaged-changes flag. -/
inductive SelectedFileRes where
  | errNoFiles
  | otherError (e : Nat)
  | file (hasUnstagedChanges : Bool)
deriving DecidableEq, Repr

/-- What refreshStagingPanel did besides replacing the session state. -/
inductive RefreshOutcome where
  | errOut (e : Nat)
  | escaped
  | parserBailed
  | noLinesError
  | focused
deriving DecidableEq, Repr

/-- staging_panel.go refreshStagingPanel.  External collaborators enter as
arguments: the selected file lookup, the diff text fetched for the file, and
the ParsePatch result (hunk starts and stageable lines, with none standing for
a parse error, on which the Go code returns nil leaving the state alone).  The
function returns the new gui.State.Panels.Staging and what else happened.  The
colour diff handed to the view and the view bookkeeping have no bearing on the
session state and are not modelled. -/
def refreshStagingPanel (fileRes : SelectedFileRes) (diff : Str)
    (parseRes : Option (List Int × List Int)) (prior : Option stagingPanelState) :
    Option stagingPanelState × RefreshOutcome :=
  match fileRes with
  | SelectedFileRes.otherError e => (prior, RefreshOutcome.errOut e)
  | SelectedFileRes.errNoFiles => (none, RefreshOutcome.escaped)
  | SelectedFileRes.file hasUnstagedChanges =>
    if hasUnstagedChanges = false then (none, RefreshOutcome.escaped)
    else if diff.length < 2 then (none, RefreshOutcome.escaped)
    else
      match parseRes with
      | none => (prior, RefreshOutcome.parserBailed)
      | some (hunkStarts, stageableLines) =>
        let selectedLine : Int :=
          match prior with
          | some p =>
            if (stageableLines.length : Int) - 1 < p.SelectedLine then
              (stageableLines.length : Int) - 1
            else p.SelectedLine
          | none => 0
        let st : stagingPanelState :=
          ⟨stageableLines, hunkStarts, selectedLine, diff⟩
        if stageableLines.length = 0 then (some st, RefreshOutcome.noLinesError)
        else (some st, RefreshOutcome.focused)

/-- staging_panel.go handleCycleLine: moves the cursor to the circular
next or previous stageable line. -/
def handleCycleLine (prev : Bool) (st : stagingPanelState) : stagingPanelState :=
  let lineNumbers := st.StageableLines
  let currentLine := currentLineOf st
  let newIndex : Nat :=
    if prev then PrevIndex lineNumbers currentLine else NextIndex lineNumbers currentLine
  { st with SelectedLine := (newIndex : Int) }

/-- staging_panel.go handleCycleHunk: steps the hunk of the cursor circularly
and puts the cursor on the first stageable line past the new hunk start. -/
def handleCycleHunk (prev : Bool) (st : stagingPanelState) : stagingPanelState :=
  let currentLine := currentLineOf st
  let currentHunkIndex := PrevIndex st.HunkStarts currentLine
  let m := st.HunkStarts.length
  let newHunkIndex : Nat :=
    if prev then (if currentHunkIndex = 0 then m - 1 else currentHunkIndex - 1)
    else (if currentHunkIndex = m - 1 then 0 else currentHunkIndex + 1)
  { st with
    SelectedLine := (NextIndex st.StageableLines (st.HunkStarts.getD newHunkIndex 0) : Int) }

/-- staging_panel.go focusLineAndHunk up to the final generalFocusLine call:
computes the top line of the focus region (the enclosing hunk start, or 0 for
the first hunk so the file header stays visible) and the bottom line (one line
before the next hunk start, or the last line of the view for the final hunk,
clamped to three lines past the cursor when the span overflows the viewport
height).  The view measurements LinesHeight and Size enter as arguments. -/
def focusLineAndHunk (st : stagingPanelState) (linesHeight height : Int) : Int × Int :=
  let lineNumber := currentLineOf st
  let nextHunkStartIndex := NextIndex st.HunkStarts lineNumber
  let bottomLine0 : Int :=
    if nextHunkStartIndex = 0 then linesHeight - 1
    else st.HunkStarts.getD nextHunkStartIndex 0 - 1
  let hunkStartIndex := PrevIndex st.HunkStarts lineNumber
  let hunkStart0 := st.HunkStarts.getD hunkStartIndex 0
  let hunkStart := if hunkStartIndex = 0 then 0 else hunkStart0
  let bottomLine := if bottomLine0 - hunkStart > height then lineNumber + 3 else bottomLine0
  (hunkStart, bottomLine)

/-- One call made to the external git apply collaborator. -/
structure ApplyCall where
  patch : Str
  reverse : Bool
  index : Bool
deriving DecidableEq, Repr

/-- Outcome of handleResetLineOrHunk.  A successful run ends in the refresh
path (ok); returned errors from patch building and from the apply collaborator
are separate from the Go panic raised with the original apply error after a
successful rollback, and from the runtime panic a malformed header would
raise inside patch building. -/
inductive ResetOutcome where
  | ok
  | errPatch (e : PatchErr)
  | errApply (e : Nat)
  | panicked (e : Nat)
  | crashed
deriving DecidableEq, Repr

/-- staging_panel.go handleResetLineOrHunk.  The external ApplyPatch
collaborator is an oracle mapping the ordinal number of the call to its result
(none for success, some e for an opaque apply error).  Returns the outcome and
the list of ApplyPatch calls in order.  The refreshFiles and
refreshStagingPanel calls after a fully successful run are outside the claim
and are folded into the ok outcome. -/
def handleResetLineOrHunk (hunk : Bool) (st : stagingPanelState) (applyRes : Nat → Option Nat) :
    ResetOutcome × List ApplyCall :=
  let currentLine := currentLineOf st
  match ObtainPatchForHunk st.Diff st.HunkStarts currentLine with
  | GoRes.err e => (ResetOutcome.errPatch e, [])
  | GoRes.panicked => (ResetOutcome.crashed, [])
  | GoRes.ok hunkPatch =>
    match ObtainPatchForHunkWithoutLine st.Diff currentLine with
    | GoRes.err e => (ResetOutcome.errPatch e, [])
    | GoRes.panicked => (ResetOutcome.crashed, [])
    | GoRes.ok patchWithoutLine =>
      let emptyPatch := HunkPatchIsEmpty patchWithoutLine
      let call0 : ApplyCall := ⟨hunkPatch, true, false⟩
      match applyRes 0 with
      | some e => (ResetOutcome.errApply e, [call0])
      | none =>
        if hunk = false ∧ emptyPatch = false then
          let call1 : ApplyCall := ⟨patchWithoutLine, false, false⟩
          match applyRes 1 with
          | none => (ResetOutcome.ok, [call0, call1])
          | some theErr =>
            let call2 : ApplyCall := ⟨hunkPatch, false, false⟩
            match applyRes 2 with
            | some e2 => (ResetOutcome.errApply e2, [call0, call1, call2])
            | none => (ResetOutcome.panicked theErr, [call0, call1, call2])
        else (ResetOutcome.ok, [call0])

/- ------------- claim-side descriptions used by the theorems -------------- -/

/-- Claim-side transform of extractLine over the hunk body (spec 4.1), with the
target given as an offset into the body: the target keeps its marker, every
other removal line is demoted to a context line, every other addition line is
omitted, and all other lines pass through unchanged. -/
def stageOneTransform (t : Int) : List Str → List Str
  | [] => []
  | l :: ls =>
    (if t = 0 then [l]
     else if l.take 1 = ['-'] then [' ' :: l.drop 1]
     else if l.take 1 = ['+'] then []
     else [l]) ++ stageOneTransform (t - 1) ls

/-- Claim-side lineChanges total of extractLine: plus one for every other
removal, minus one for every other addition. -/
def stageOneChanges (t : Int) : List Str → Int
  | [] => 0
  | l :: ls =>
    (if t = 0 then 0
     else if l.take 1 = ['-'] then 1
     else if l.take 1 = ['+'] then -1
     else 0) + stageOneChanges (t - 1) ls

/-- Claim-side transform of extractHunkWithoutLine over the hunk body
(spec 4.1): only the target line is rewritten, a removal demoted to context, an
addition dropped; every other line passes through byte for byte. -/
def dropOneTransform (t : Int) : List Str → List Str
  | [] => []
  | l :: ls =>
    (if t = 0 ∧ l.take 1 = ['-'] then [' ' :: l.drop 1]
     else if t = 0 ∧ l.take 1 = ['+'] then []
     else [l]) ++ dropOneTransform (t - 1) ls

/-- Claim-side lineChanges total of extractHunkWithoutLine. -/
def dropOneChanges (t : Int) : List Str → Int
  | [] => 0
  | l :: ls =>
    (if t = 0 ∧ l.take 1 = ['-'] then 1
     else if t = 0 ∧ l.take 1 = ['+'] then -1
     else 0) + dropOneChanges (t - 1) ls

/-- A well-formed hunk header line: the opening at-signs, the old-file start
and count, the new-file start, the new-file count given as its digit text, the
closing at-signs, and the trailing context text. -/
def mkHeader (a b c : Nat) (dstr : Str) (ctx : Str) : Str :=
  atatStr ++ [' ', '-'] ++ natToDigits a ++ [','] ++ natToDigits b ++
    [' ', '+'] ++ natToDigits c ++ [','] ++ dstr ++ spAtAtStr ++ ctx

/-- Membership of a line number in the hunk numbered j: strictly after that
hunk start and, when a later hunk exists, strictly before the next one. -/
def inHunk (hunkStarts : List Int) (j : Nat) (x : Int) : Prop :=
  hunkStarts.getD j 0 < x ∧ (j + 1 < hunkStarts.length → x < hunkStarts.getD (j + 1) 0)

instance inHunkDecidable (hunkStarts : List Int) (j : Nat) (x : Int) :
    Decidable (inHunk hunkStarts j x) :=
  inferInstanceAs (Decidable (hunkStarts.getD j 0 < x ∧
    (j + 1 < hunkStarts.length → x < hunkStarts.getD (j + 1) 0)))

/-- Invariants of an Active session whose hunks each hold a stageable line:
both index tables are strictly increasing, the cursor is a valid index into
StageableLines, every stageable line lies strictly after the first hunk start,
and every hunk contains a stageable line. -/
def SessionInv (st : stagingPanelState) : Prop :=
  st.StageableLines ≠ [] ∧ st.HunkStarts ≠ [] ∧
  List.Chain' (· < ·) st.StageableLines ∧ List.Chain' (· < ·) st.HunkStarts ∧
  0 ≤ st.SelectedLine ∧ st.SelectedLine < st.StageableLines.length ∧
  (∀ s ∈ st.StageableLines, st.HunkStarts.getD 0 0 < s) ∧
  (∀ j, j < st.HunkStarts.length → ∃ s ∈ st.StageableLines, inHunk st.HunkStarts j s)

/-- The hunk the cursor sits in, as the session derives it. -/
def hunkIndexOf (st : stagingPanelState) : Nat :=
  PrevIndex st.HunkStarts (currentLineOf st)

/- ======================= theorems ======================================= -/

theorem updatedHeader_of_no_match (hdr : Str) (lc : Int)
    (h : findFirstNum hdr = none) : updatedHeader hdr lc = GoRes.panicked := by
  unfold updatedHeader
  rw [h]

/-- Claim C5, counterexample: on the hunk header with no digit run before the
closing at-signs, updatedHeader does not return any error value to the caller;
the Go code panics indexing the nil FindStringSubmatch result. -/
theorem claim_C5_counterexample :
    updatedHeader ("@@ malformed @@".data) 0 = GoRes.panicked ∧
    updatedHeader ("@@ malformed @@".data) 0 ≠ GoRes.err PatchErr.cantFindHunks ∧
    updatedHeader ("@@ malformed @@".data) 0 ≠ GoRes.err PatchErr.cantFindHunk ∧
    updatedHeader ("@@ malformed @@".data) 0 ≠ GoRes.err PatchErr.atoiRange := by
  refine ⟨by decide, by decide, by decide, by decide⟩

/-- Claim C5, amended: for every hunk header line in which the expected numeric
post-image-count field (a digit run immediately preceding the closing at-signs)
is absent, updatedHeader panics at runtime (Go indexes entry 1 of a nil
FindStringSubmatch result); no header text and no error value are returned to
the caller. -/
theorem claim_C5_amended (hdr : Str) (lc : Int) (h : findFirstNum hdr = none) :
    updatedHeader hdr lc = GoRes.panicked :=
  updatedHeader_of_no_match hdr lc h

/-- Witness for claim C5: the amended theorem applied to a concrete malformed
header. -/
theorem claim_C5_witness :
    findFirstNum ("@@ -1,2 +1,x @@".data) = none ∧
    updatedHeader ("@@ -1,2 +1,x @@".data) 7 = GoRes.panicked :=
  ⟨by decide, claim_C5_amended ("@@ -1,2 +1,x @@".data) 7 (by decide)⟩

/-- Claim C4, counterexample: a refresh of a file with unstaged changes and a
non-trivial diff whose parse yields zero stageable lines leaves the session
Active (non-nil) with an empty StageableLines list, instead of destroying it. -/
theorem claim_C4_counterexample :
    (refreshStagingPanel (SelectedFileRes.file true) ("ab".data) (some ([1], [])) none).1 =
      some ⟨[], [1], 0, "ab".data⟩ ∧
    (refreshStagingPanel (SelectedFileRes.file true) ("ab".data) (some ([1], [])) none).1 ≠
      none := by
  refine ⟨by decide, by decide⟩

/-- Claim C4, amended: when a session refresh finds a file with unstaged
changes and a diff of at least two characters, and the parse yields zero
stageable lines, the session is not destroyed: it is replaced by an Active
state holding the empty StageableLines list (with the cursor clamped to -1 when
a prior session with a non-negative cursor existed, 0 when none existed) and an
error panel is shown.  The session is set to nil only on escape, on a missing
file, on a file without unstaged changes, or on a diff shorter than two
characters. -/
theorem claim_C4_amended (diff : Str) (hs : List Int) (prior : Option stagingPanelState)
    (hlen : 2 ≤ diff.length) :
    refreshStagingPanel (SelectedFileRes.file true) diff (some (hs, [])) prior =
      (some ⟨[], hs,
        (match prior with
         | some p => if (-1 : Int) < p.SelectedLine then -1 else p.SelectedLine
         | none => 0), diff⟩,
       RefreshOutcome.noLinesError) := by
  have h2 : ¬ diff.length < 2 := by omega
  cases prior with
  | none => simp [refreshStagingPanel, h2]
  | some p => simp [refreshStagingPanel, h2]

/-- Witness for claim C4: the amended theorem applied to a concrete refresh
with a prior session. -/
theorem claim_C4_witness :
    refreshStagingPanel (SelectedFileRes.file true) ("ab".data) (some ([1], []))
        (some ⟨[2], [1], 5, []⟩) =
      (some ⟨[], [1], -1, "ab".data⟩, RefreshOutcome.noLinesError) := by
  have h := claim_C4_amended ("ab".data) [1] (some ⟨[2], [1], 5, []⟩) (by decide)
  simpa using h

/-- Claim C7: on every session (re)build along the normal refresh path, the new
cursor is 0 when no prior session existed; when a prior session existed it is
clamped to the new last valid index exactly when the new StageableLines list
length is at most the prior cursor, and preserved unchanged otherwise. -/
theorem claim_C7 (diff : Str) (hs sl : List Int) (prior : Option stagingPanelState)
    (hlen : 2 ≤ diff.length) :
    ∃ st : stagingPanelState,
      refreshStagingPanel (SelectedFileRes.file true) diff (some (hs, sl)) prior =
        (some st,
          if sl.length = 0 then RefreshOutcome.noLinesError else RefreshOutcome.focused) ∧
      st.StageableLines = sl ∧ st.HunkStarts = hs ∧ st.Diff = diff ∧
      (prior = none → st.SelectedLine = 0) ∧
      (∀ p, prior = some p →
        ((sl.length : Int) ≤ p.SelectedLine → st.SelectedLine = (sl.length : Int) - 1) ∧
        (p.SelectedLine < (sl.length : Int) → st.SelectedLine = p.SelectedLine)) := by
  have h2 : ¬ diff.length < 2 := by omega
  cases prior with
  | none =>
    refine ⟨⟨sl, hs, 0, diff⟩, ?_, rfl, rfl, rfl, fun _ => rfl, fun p hp => by cases hp⟩
    simp only [refreshStagingPanel, h2, if_false]
    by_cases h0 : sl.length = 0 <;> simp [h0]
  | some p =>
    by_cases hc : (sl.length : Int) - 1 < p.SelectedLine
    · refine ⟨⟨sl, hs, (sl.length : Int) - 1, diff⟩, ?_, rfl, rfl, rfl, ?_, ?_⟩
      · simp only [refreshStagingPanel, h2, if_false, hc, if_true]
        by_cases h0 : sl.length = 0 <;> simp [h0, hc]
      · intro h; cases h
      · intro q hq
        cases hq
        refine ⟨fun _ => rfl, fun hlt => ?_⟩
        omega
    · refine ⟨⟨sl, hs, p.SelectedLine, diff⟩, ?_, rfl, rfl, rfl, ?_, ?_⟩
      · simp only [refreshStagingPanel, h2, if_false, hc, if_false]
        by_cases h0 : sl.length = 0 <;> simp [h0, hc]
      · intro h; cases h
      · intro q hq
        cases hq
        refine ⟨fun hle => ?_, fun _ => rfl⟩
        omega

/-- Witness for claim C7: a concrete rebuild in which the prior cursor is out
of range of the shorter new list and gets clamped. -/
theorem claim_C7_witness :
    ∃ st : stagingPanelState,
      refreshStagingPanel (SelectedFileRes.file true) ("ab".data) (some ([1], [2]))
          (some ⟨[2, 3], [1], 1, []⟩) =
        (some st, if [(2 : Int)].length = 0 then RefreshOutcome.noLinesError
          else RefreshOutcome.focused) ∧
      st.StageableLines = [2] ∧ st.HunkStarts = [1] ∧ st.Diff = "ab".data ∧
      ((some ⟨[2, 3], [1], 1, []⟩ : Option stagingPanelState) = none → st.SelectedLine = 0) ∧
      (∀ p, (some ⟨[2, 3], [1], 1, []⟩ : Option stagingPanelState) = some p →
        (([(2 : Int)].length : Int) ≤ p.SelectedLine →
          st.SelectedLine = ([(2 : Int)].length : Int) - 1) ∧
        (p.SelectedLine < ([(2 : Int)].length : Int) → st.SelectedLine = p.SelectedLine)) :=
  claim_C7 ("ab".data) [1] [2] (some ⟨[2, 3], [1], 1, []⟩) (by decide)

/-- Claim C1, counterexample: in the two-phase unstage flow with scope Line,
with the whole-hunk reverse apply succeeding, a non-empty line-removed patch,
the forward apply failing, and the recovery re-apply succeeding, the handler
does not report the original apply error to the caller as a returned error: it
panics carrying that error. -/
theorem claim_C1_counterexample :
    (handleResetLineOrHunk false
        ⟨[2, 3], [1], 0, ("--- a\n@@ -1,2 +1,2 @@\n-x\n+y\n z\n".data)⟩
        (fun n => if n = 1 then some 77 else none)).1 = ResetOutcome.panicked 77 ∧
    (handleResetLineOrHunk false
        ⟨[2, 3], [1], 0, ("--- a\n@@ -1,2 +1,2 @@\n-x\n+y\n z\n".data)⟩
        (fun n => if n = 1 then some 77 else none)).1 ≠ ResetOutcome.errApply 77 := by
  refine ⟨by decide, by decide⟩

/-- Claim C1, amended: in the two-phase unstage flow with scope Line, when the
whole-hunk reverse apply succeeds, the line-removed patch is not empty, and the
forward apply of the line-removed SubPatch fails, the recovery re-apply of the
original whole-hunk SubPatch is attempted exactly once (the call trace is
exactly reverse-apply, forward apply, recovery apply); if the recovery apply
succeeds the handler panics carrying the original apply error instead of
returning it, and the apply error returned to the caller is the rollback
failure exactly when the recovery apply itself fails. -/
theorem claim_C1_amended (st : stagingPanelState) (applyRes : Nat → Option Nat)
    (hp wlp : Str) (e1 : Nat)
    (h1 : ObtainPatchForHunk st.Diff st.HunkStarts (currentLineOf st) = GoRes.ok hp)
    (h2 : ObtainPatchForHunkWithoutLine st.Diff (currentLineOf st) = GoRes.ok wlp)
    (h3 : HunkPatchIsEmpty wlp = false)
    (h4 : applyRes 0 = none) (h5 : applyRes 1 = some e1) :
    (handleResetLineOrHunk false st applyRes).2 =
      [⟨hp, true, false⟩, ⟨wlp, false, false⟩, ⟨hp, false, false⟩] ∧
    (applyRes 2 = none →
      (handleResetLineOrHunk false st applyRes).1 = ResetOutcome.panicked e1) ∧
    (∀ e2, applyRes 2 = some e2 →
      (handleResetLineOrHunk false st applyRes).1 = ResetOutcome.errApply e2) := by
  simp only [handleResetLineOrHunk, h1, h2, h3, h4, h5]
  refine ⟨?_, ?_, ?_⟩
  · cases h6 : applyRes 2 <;> simp [h6]
  · intro h6; simp [h6]
  · intro e2 h6; simp [h6]

/-- Witness for claim C1: the amended theorem applied to a concrete session,
with the recovery apply succeeding. -/
theorem claim_C1_witness :
    (handleResetLineOrHunk false
        ⟨[2, 3], [1], 0, ("--- a\n@@ -1,2 +1,2 @@\n-x\n+y\n z\n".data)⟩
        (fun n => if n = 1 then some 5 else none)).2 =
      [⟨("--- a\n@@ -1,2 +1,2 @@\n-x\n+y\n z\n".data), true, false⟩,
       ⟨("--- a\n@@ -1,2 +1,3 @@\n x\n+y\n z\n".data), false, false⟩,
       ⟨("--- a\n@@ -1,2 +1,2 @@\n-x\n+y\n z\n".data), false, false⟩] ∧
    ((fun n => if n = 1 then some 5 else none) 2 = (none : Option Nat) →
      (handleResetLineOrHunk false
        ⟨[2, 3], [1], 0, ("--- a\n@@ -1,2 +1,2 @@\n-x\n+y\n z\n".data)⟩
        (fun n => if n = 1 then some 5 else none)).1 = ResetOutcome.panicked 5) ∧
    (∀ e2, (fun n => if n = 1 then some 5 else none) 2 = some e2 →
      (handleResetLineOrHunk false
        ⟨[2, 3], [1], 0, ("--- a\n@@ -1,2 +1,2 @@\n-x\n+y\n z\n".data)⟩
        (fun n => if n = 1 then some 5 else none)).1 = ResetOutcome.errApply e2) :=
  claim_C1_amended
    ⟨[2, 3], [1], 0, ("--- a\n@@ -1,2 +1,2 @@\n-x\n+y\n z\n".data)⟩
    (fun n => if n = 1 then some 5 else none)
    ("--- a\n@@ -1,2 +1,2 @@\n-x\n+y\n z\n".data)
    ("--- a\n@@ -1,2 +1,3 @@\n x\n+y\n z\n".data) 5
    (by decide) (by decide) (by decide) (by decide) (by decide)

theorem chain_getD_lt (l : List Int) (hl : List.Chain' (· < ·) l) (i j : Nat)
    (hij : i < j) (hj : j < l.length) : l.getD i 0 < l.getD j 0 := by
  rw [List.chain'_iff_pairwise, List.pairwise_iff_get] at hl
  have hi : i < l.length := lt_trans hij hj
  rw [List.getD_eq_getElem l 0 hi, List.getD_eq_getElem l 0 hj]
  have := hl ⟨i, hi⟩ ⟨j, hj⟩ (by simpa using hij)
  simpa using this

theorem chain_getD_le (l : List Int) (hl : List.Chain' (· < ·) l) (i j : Nat)
    (hij : i ≤ j) (hj : j < l.length) : l.getD i 0 ≤ l.getD j 0 := by
  rcases Nat.eq_or_lt_of_le hij with h | h
  · rw [h]
  · exact le_of_lt (chain_getD_lt l hl i j h hj)

theorem getD_mem_int (ns : List Int) (j : Nat) (hj : j < ns.length) :
    ns.getD j 0 ∈ ns := by
  rw [List.getD_eq_getElem ns 0 hj]
  exact List.getElem_mem hj

theorem firstIdxAbove_spec (ns : List Int) (x : Int) :
    (match firstIdxAbove ns x with
     | some j => j < ns.length ∧ x < ns.getD j 0 ∧ ∀ i, i < j → ns.getD i 0 ≤ x
     | none => ∀ n ∈ ns, n ≤ x) := by
  induction ns with
  | nil => simp [firstIdxAbove]
  | cons n ns ih =>
    by_cases hx : x < n
    · simp [firstIdxAbove, hx]
    · simp only [firstIdxAbove, hx, if_false]
      cases h : firstIdxAbove ns x with
      | none =>
        rw [h] at ih
        simp only []
        intro m hm
        rcases List.mem_cons.mp hm with rfl | hm'
        · omega
        · exact ih m hm'
      | some j =>
        rw [h] at ih
        simp only [List.length_cons, List.getD_cons_succ]
        refine ⟨by omega, ih.2.1, ?_⟩
        intro i hi
        cases i with
        | zero => simpa using le_of_not_lt hx
        | succ i' =>
          rw [List.getD_cons_succ]
          exact ih.2.2 i' (by omega)

theorem lastIdxBelow_spec (ns : List Int) (x : Int) :
    (match lastIdxBelow ns x with
     | some k => k < ns.length ∧ ns.getD k 0 < x ∧
         ∀ i, k < i → i < ns.length → x ≤ ns.getD i 0
     | none => ∀ n ∈ ns, x ≤ n) := by
  induction ns with
  | nil => simp [lastIdxBelow]
  | cons n ns ih =>
    simp only [lastIdxBelow]
    cases h : lastIdxBelow ns x with
    | some k =>
      rw [h] at ih
      simp only [List.length_cons, List.getD_cons_succ]
      refine ⟨by omega, ih.2.1, ?_⟩
      intro i hki hi
      cases i with
      | zero => omega
      | succ i' =>
        rw [List.getD_cons_succ]
        exact ih.2.2 i' (by omega) (by omega)
    | none =>
      rw [h] at ih
      by_cases hn : n < x
      · rw [if_pos hn]
        simp only [List.length_cons, List.getD_cons_zero]
        refine ⟨by omega, hn, ?_⟩
        intro i _ hi
        cases i with
        | zero => omega
        | succ i' =>
          rw [List.getD_cons_succ]
          have hmem : ns.getD i' 0 ∈ ns := getD_mem_int ns i' (by simpa using hi)
          exact ih _ hmem
      · rw [if_neg hn]
        intro m hm
        rcases List.mem_cons.mp hm with rfl | hm'
        · omega
        · exact ih m hm'

theorem NextIndex_eq_of (ns : List Int) (x : Int) (j : Nat) (hj : j < ns.length)
    (hgt : x < ns.getD j 0) (hle : ∀ i, i < j → ns.getD i 0 ≤ x) :
    NextIndex ns x = j := by
  have hs := firstIdxAbove_spec ns x
  unfold NextIndex
  cases h : firstIdxAbove ns x with
  | none =>
    rw [h] at hs
    exact absurd (hs _ (getD_mem_int ns j hj)) (by omega)
  | some j0 =>
    rw [h] at hs
    simp only []
    rcases Nat.lt_trichotomy j0 j with hc | hc | hc
    · exact absurd (hle j0 hc) (by omega)
    · exact hc
    · exact absurd (hs.2.2 j hc) (by omega)

theorem NextIndex_eq_zero_of_all_le (ns : List Int) (x : Int)
    (hall : ∀ n ∈ ns, n ≤ x) : NextIndex ns x = 0 := by
  have hs := firstIdxAbove_spec ns x
  unfold NextIndex
  cases h : firstIdxAbove ns x with
  | none => rfl
  | some j0 =>
    rw [h] at hs
    exact absurd (hall _ (getD_mem_int ns j0 hs.1)) (by omega)

theorem PrevIndex_eq_of (ns : List Int) (x : Int) (k : Nat) (hk : k < ns.length)
    (hlt : ns.getD k 0 < x) (hub : ∀ i, k < i → i < ns.length → x ≤ ns.getD i 0) :
    PrevIndex ns x = k := by
  have hs := lastIdxBelow_spec ns x
  unfold PrevIndex
  cases h : lastIdxBelow ns x with
  | none =>
    rw [h] at hs
    exact absurd (hs _ (getD_mem_int ns k hk)) (by omega)
  | some k0 =>
    rw [h] at hs
    simp only []
    rcases Nat.lt_trichotomy k0 k with hc | hc | hc
    · exact absurd (hs.2.2 k hc hk) (by omega)
    · exact hc
    · exact absurd (hub k0 hc hs.1) (by omega)

theorem PrevIndex_sorted (ns : List Int) (x : Int) (k : Nat)
    (hch : List.Chain' (· < ·) ns) (hk : k < ns.length) (hlt : ns.getD k 0 < x)
    (hub : k + 1 < ns.length → x ≤ ns.getD (k + 1) 0) : PrevIndex ns x = k := by
  apply PrevIndex_eq_of ns x k hk hlt
  intro i hki hi
  have hk1 : k + 1 < ns.length := by omega
  have h2 := hub hk1
  have h3 : ns.getD (k + 1) 0 ≤ ns.getD i 0 := chain_getD_le ns hch (k + 1) i (by omega) hi
  omega

theorem NextIndex_sorted (ns : List Int) (x : Int) (k : Nat)
    (hch : List.Chain' (· < ·) ns) (hk : k < ns.length) (hlty : ns.getD k 0 ≤ x)
    (hub : k + 1 < ns.length → x < ns.getD (k + 1) 0) :
    NextIndex ns x = (if k + 1 = ns.length then 0 else k + 1) := by
  by_cases hlast : k + 1 = ns.length
  · simp only [hlast, if_true]
    apply NextIndex_eq_zero_of_all_le
    intro n hn
    rcases List.mem_iff_get.mp hn with ⟨idx, hidx⟩
    have hle : ns.getD idx 0 ≤ ns.getD k 0 :=
      chain_getD_le ns hch idx k (by omega) hk
    rw [List.getD_eq_getElem ns 0 idx.isLt, ← List.get_eq_getElem] at hle
    rw [← hidx]
    omega
  · simp only [hlast, if_false]
    apply NextIndex_eq_of ns x (k + 1) (by omega) (hub (by omega))
    intro i hi
    have := chain_getD_le ns hch i k (by omega) hk
    omega

/-- Claim C9: for a session whose cursor line sits in hunk k of the strictly
increasing hunk-start table, the focus-region computation clamps the bottom
line to three lines past the cursor (so it never exceeds it) whenever the span
from the chosen top line to the hunk's natural bottom line exceeds the viewport
height, and it returns top line 0, including the file header, whenever the
cursor sits in the first hunk. -/
theorem claim_C9 (st : stagingPanelState) (linesHeight height : Int) (k : Nat)
    (hch : List.Chain' (· < ·) st.HunkStarts) (hk : k < st.HunkStarts.length)
    (hlo : st.HunkStarts.getD k 0 < currentLineOf st)
    (hhi : k + 1 < st.HunkStarts.length → currentLineOf st < st.HunkStarts.getD (k + 1) 0) :
    ((if k + 1 = st.HunkStarts.length then linesHeight - 1
        else st.HunkStarts.getD (k + 1) 0 - 1) -
       (if k = 0 then 0 else st.HunkStarts.getD k 0) > height →
      (focusLineAndHunk st linesHeight height).2 = currentLineOf st + 3 ∧
      (focusLineAndHunk st linesHeight height).2 ≤ currentLineOf st + 3) ∧
    (k = 0 → (focusLineAndHunk st linesHeight height).1 = 0) := by
  have hprev : PrevIndex st.HunkStarts (currentLineOf st) = k :=
    PrevIndex_sorted st.HunkStarts (currentLineOf st) k hch hk hlo
      (fun h => le_of_lt (hhi h))
  have hnext : NextIndex st.HunkStarts (currentLineOf st) =
      (if k + 1 = st.HunkStarts.length then 0 else k + 1) :=
    NextIndex_sorted st.HunkStarts (currentLineOf st) k hch hk (le_of_lt hlo) hhi
  have hfl : focusLineAndHunk st linesHeight height =
      ((if k = 0 then 0 else st.HunkStarts.getD k 0),
       if (if k + 1 = st.HunkStarts.length then linesHeight - 1
           else st.HunkStarts.getD (k + 1) 0 - 1) -
          (if k = 0 then 0 else st.HunkStarts.getD k 0) > height
       then currentLineOf st + 3
       else (if k + 1 = st.HunkStarts.length then linesHeight - 1
             else st.HunkStarts.getD (k + 1) 0 - 1)) := by
    dsimp only [focusLineAndHunk]
    rw [hprev, hnext]
    by_cases hl : k + 1 = st.HunkStarts.length
    · simp [hl]
    · simp [hl]
  refine ⟨?_, ?_⟩
  · intro hspan
    have h2 : (focusLineAndHunk st linesHeight height).2 = currentLineOf st + 3 := by
      rw [hfl]
      exact if_pos hspan
    exact ⟨h2, le_of_eq h2⟩
  · intro hk0
    subst hk0
    have h1 : (focusLineAndHunk st linesHeight height).1 =
        (if (0 : Nat) = 0 then (0 : Int) else st.HunkStarts.getD 0 0) := by rw [hfl]
    simpa using h1

/-- Witness for claim C9: a concrete two-hunk session in which the first hunk
overflows a viewport of height three. -/
theorem claim_C9_witness :
    ((if 0 + 1 = ([(1 : Int), 5] : List Int).length then (100 : Int) - 1
        else ([(1 : Int), 5] : List Int).getD (0 + 1) 0 - 1) -
       (if (0 : Nat) = 0 then 0
        else ([(1 : Int), 5] : List Int).getD 0 0) > 3 →
      (focusLineAndHunk ⟨[2], [1, 5], 0, []⟩ 100 3).2 =
        currentLineOf ⟨[2], [1, 5], 0, []⟩ + 3 ∧
      (focusLineAndHunk ⟨[2], [1, 5], 0, []⟩ 100 3).2 ≤
        currentLineOf ⟨[2], [1, 5], 0, []⟩ + 3) ∧
    ((0 : Nat) = 0 → (focusLineAndHunk ⟨[2], [1, 5], 0, []⟩ 100 3).1 = 0) :=
  claim_C9 ⟨[2], [1, 5], 0, []⟩ 100 3 0
    (by norm_num [List.chain'_cons, List.chain'_singleton]) (by decide) (by decide) (by decide)

theorem getHeaderLengthAux_isSome (ls : List Str) (n : Nat)
    (h : ∃ l ∈ ls, l.take 2 = atatStr) : ∃ i, getHeaderLengthAux n ls = some i := by
  induction ls generalizing n with
  | nil => simp at h
  | cons l ls ih =>
    by_cases hl : l.take 2 = atatStr
    · exact ⟨n, by simp [getHeaderLengthAux, hl]⟩
    · rcases h with ⟨l2, hmem, hl2⟩
      rcases List.mem_cons.mp hmem with rfl | hmem2
      · exact absurd hl2 hl
      · rcases ih (n + 1) ⟨l2, hmem2, hl2⟩ with ⟨i, hi⟩
        exact ⟨i, by simp [getHeaderLengthAux, hl, hi]⟩

theorem getHunkStartAux_none (ls : List Str) (ln : Int) (i hs : Nat)
    (h : (i : Int) + ls.length ≤ ln) : getHunkStartAux ln i hs ls = none := by
  induction ls generalizing i hs with
  | nil => rfl
  | cons l ls ih =>
    have hne : (i : Int) ≠ ln := by
      simp only [List.length_cons] at h
      push_cast at h
      omega
    dsimp only [getHunkStartAux]
    rw [if_neg hne]
    apply ih
    simp only [List.length_cons] at h
    push_cast at h ⊢
    omega

/-- Claim C10: for a diff containing a hunk-start line and a line number at or
past the number of lines of the diff, both ObtainPatchForLine and
ObtainPatchForHunkWithoutLine reject the out-of-range line number with the
hunk-lookup error and produce no patch text. -/
theorem claim_C10 (patch : Str) (lineNumber : Int)
    (hat : ∃ l ∈ splitNL patch, l.take 2 = atatStr)
    (hln : ((splitNL patch).length : Int) ≤ lineNumber) :
    ObtainPatchForLine patch lineNumber = GoRes.err PatchErr.cantFindHunk ∧
    ObtainPatchForHunkWithoutLine patch lineNumber = GoRes.err PatchErr.cantFindHunk := by
  rcases getHeaderLengthAux_isSome (splitNL patch) 0 hat with ⟨i, hi⟩
  have hghl : getHeaderLength (splitNL patch) = GoRes.ok i := by
    unfold getHeaderLength
    rw [hi]
  have hgone : getHunkStart (splitNL patch) lineNumber = GoRes.err PatchErr.cantFindHunk := by
    unfold getHunkStart
    rw [getHunkStartAux_none (splitNL patch) lineNumber 0 0 (by push_cast; omega)]
  constructor
  · simp only [ObtainPatchForLine, hghl, hgone]
  · simp only [ObtainPatchForHunkWithoutLine, hghl, hgone]

/-- Witness for claim C10: a two-line diff probed at line number five. -/
theorem claim_C10_witness :
    ObtainPatchForLine ("@@ x\n".data) 5 = GoRes.err PatchErr.cantFindHunk ∧
    ObtainPatchForHunkWithoutLine ("@@ x\n".data) 5 = GoRes.err PatchErr.cantFindHunk :=
  claim_C10 ("@@ x\n".data) 5 (by decide) (by decide)

theorem PrevIndex_eq_last_of_all_le (ns : List Int) (x : Int)
    (hall : ∀ n ∈ ns, x ≤ n) : PrevIndex ns x = ns.length - 1 := by
  have hs := lastIdxBelow_spec ns x
  unfold PrevIndex
  cases h : lastIdxBelow ns x with
  | none => rfl
  | some k =>
    rw [h] at hs
    exact absurd (hall _ (getD_mem_int ns k hs.1)) (by omega)

theorem succ_wrap_mod (k m : Nat) (hk : k < m) :
    (if k + 1 = m then 0 else k + 1) = (k + 1) % m := by
  by_cases h : k + 1 = m
  · rw [if_pos h, h, Nat.mod_self]
  · rw [if_neg h, Nat.mod_eq_of_lt (by omega)]

theorem succ_wrap_mod_pred (k m : Nat) (hk : k < m) :
    (if k = m - 1 then 0 else k + 1) = (k + 1) % m := by
  rw [← succ_wrap_mod k m hk]
  by_cases h : k = m - 1
  · rw [if_pos h, if_pos (by omega)]
  · rw [if_neg h, if_neg (by omega)]

theorem pred_wrap_mod (k m : Nat) (hk : k < m) :
    (if k = 0 then m - 1 else k - 1) = (k + (m - 1)) % m := by
  by_cases h : k = 0
  · rw [if_pos h, h, Nat.zero_add, Nat.mod_eq_of_lt (by omega)]
  · rw [if_neg h]
    have h2 : k + (m - 1) = m + (k - 1) := by omega
    rw [h2, Nat.add_mod_left, Nat.mod_eq_of_lt (by omega)]

theorem sessionInv_sel_lt (st : stagingPanelState) (hInv : SessionInv st) :
    st.SelectedLine.toNat < st.StageableLines.length := by
  obtain ⟨_, _, _, _, hsel0, hseln, _, _⟩ := hInv
  omega

theorem handleCycleLine_eq (b : Bool) (st : stagingPanelState) (hInv : SessionInv st) :
    handleCycleLine b st =
      { st with SelectedLine :=
          (((st.SelectedLine.toNat +
              (if b then st.StageableLines.length - 1 else 1)) %
            st.StageableLines.length : Nat) : Int) } := by
  obtain ⟨hS, hH, hchS, hchH, hsel0, hseln, hafter, hhunks⟩ := hInv
  have hin : st.SelectedLine.toNat < st.StageableLines.length := by omega
  set n := st.StageableLines.length with hn
  set i := st.SelectedLine.toNat with hi
  cases b with
  | false =>
    have hrfl : handleCycleLine false st =
        { st with SelectedLine :=
            ((NextIndex st.StageableLines (st.StageableLines.getD i 0) : Nat) : Int) } := rfl
    have hnxt : NextIndex st.StageableLines (st.StageableLines.getD i 0) =
        (if i + 1 = n then 0 else i + 1) :=
      NextIndex_sorted st.StageableLines (st.StageableLines.getD i 0) i hchS hin
        (le_refl _) (fun h => chain_getD_lt st.StageableLines hchS i (i + 1) (by omega) h)
    have hc : (if (false = true) then n - 1 else 1) = 1 := rfl
    rw [hc, hrfl, hnxt, succ_wrap_mod i n hin]
  | true =>
    have hrfl : handleCycleLine true st =
        { st with SelectedLine :=
            ((PrevIndex st.StageableLines (st.StageableLines.getD i 0) : Nat) : Int) } := rfl
    have hc : (if (true = true) then n - 1 else 1) = n - 1 := rfl
    rw [hc]
    by_cases hz : i = 0
    · have hprv : PrevIndex st.StageableLines (st.StageableLines.getD i 0) = n - 1 := by
        apply PrevIndex_eq_last_of_all_le
        intro x hx
        rcases List.mem_iff_get.mp hx with ⟨idx, hidx⟩
        have hle : st.StageableLines.getD i 0 ≤ st.StageableLines.getD idx 0 := by
          apply chain_getD_le st.StageableLines hchS i idx (by omega) idx.isLt
        rw [List.getD_eq_getElem _ 0 idx.isLt, ← List.get_eq_getElem, hidx] at hle
        exact hle
      rw [hrfl, hprv, ← pred_wrap_mod i n hin, if_pos hz]

    · have him : i - 1 + 1 = i := by omega
      have hprv : PrevIndex st.StageableLines (st.StageableLines.getD i 0) = i - 1 := by
        apply PrevIndex_sorted st.StageableLines _ (i - 1) hchS (by omega)
        · exact chain_getD_lt st.StageableLines hchS (i - 1) i (by omega) hin
        · intro h
          rw [him]
      rw [hrfl, hprv, ← pred_wrap_mod i n hin, if_neg hz]

theorem handleCycleLine_inv (b : Bool) (st : stagingPanelState) (hInv : SessionInv st) :
    SessionInv (handleCycleLine b st) := by
  rw [handleCycleLine_eq b st hInv]
  obtain ⟨hS, hH, hchS, hchH, hsel0, hseln, hafter, hhunks⟩ := hInv
  have hn : 0 < st.StageableLines.length := List.length_pos.mpr hS
  refine ⟨hS, hH, hchS, hchH, ?_, ?_, hafter, hhunks⟩
  · dsimp only
    positivity
  · dsimp only
    have := Nat.mod_lt (st.SelectedLine.toNat +
      (if b then st.StageableLines.length - 1 else 1)) hn
    exact_mod_cast this

theorem handleCycleLine_iter (b : Bool) (st : stagingPanelState) (hInv : SessionInv st)
    (t : Nat) :
    (handleCycleLine b)^[t] st =
      { st with SelectedLine :=
          (((st.SelectedLine.toNat + t * (if b then st.StageableLines.length - 1 else 1)) %
            st.StageableLines.length : Nat) : Int) } := by
  induction t generalizing st with
  | zero =>
    obtain ⟨hS, hH, hchS, hchH, hsel0, hseln, hafter, hhunks⟩ := hInv
    have hin : st.SelectedLine.toNat < st.StageableLines.length := by omega
    simp only [Function.iterate_zero, id_eq, Nat.zero_mul, Nat.add_zero,
      Nat.mod_eq_of_lt hin, Int.toNat_of_nonneg hsel0]
  | succ t ih =>
    rw [Function.iterate_succ_apply, ih (handleCycleLine b st) (handleCycleLine_inv b st hInv),
      handleCycleLine_eq b st hInv]
    have harith : (((st.SelectedLine.toNat +
          (if b then st.StageableLines.length - 1 else 1)) % st.StageableLines.length) +
          t * (if b then st.StageableLines.length - 1 else 1)) % st.StageableLines.length =
        (st.SelectedLine.toNat + (t + 1) * (if b then st.StageableLines.length - 1 else 1)) %
          st.StageableLines.length := by
      rw [Nat.mod_add_mod]
      congr 1
      ring
    dsimp only
    simp only [Int.toNat_natCast]
    rw [harith]

theorem hunkIndexOf_spec (st : stagingPanelState) (hInv : SessionInv st) :
    hunkIndexOf st < st.HunkStarts.length ∧
    st.HunkStarts.getD (hunkIndexOf st) 0 < currentLineOf st ∧
    (∀ i, hunkIndexOf st < i → i < st.HunkStarts.length →
      currentLineOf st ≤ st.HunkStarts.getD i 0) := by
  obtain ⟨hS, hH, hchS, hchH, hsel0, hseln, hafter, hhunks⟩ := hInv
  have hmem : currentLineOf st ∈ st.StageableLines :=
    getD_mem_int _ _ (by omega)
  have h0 : st.HunkStarts.getD 0 0 < currentLineOf st := hafter _ hmem
  have hs := lastIdxBelow_spec st.HunkStarts (currentLineOf st)
  unfold hunkIndexOf PrevIndex
  cases h : lastIdxBelow st.HunkStarts (currentLineOf st) with
  | none =>
    rw [h] at hs
    have hHlen : 0 < st.HunkStarts.length := List.length_pos.mpr hH
    exact absurd (hs _ (getD_mem_int _ 0 hHlen)) (by omega)
  | some k =>
    rw [h] at hs
    exact hs

theorem handleCycleHunk_step (b : Bool) (st : stagingPanelState) (hInv : SessionInv st) :
    SessionInv (handleCycleHunk b st) ∧
    (handleCycleHunk b st).StageableLines = st.StageableLines ∧
    (handleCycleHunk b st).HunkStarts = st.HunkStarts ∧
    hunkIndexOf (handleCycleHunk b st) =
      (hunkIndexOf st + (if b then st.HunkStarts.length - 1 else 1)) %
        st.HunkStarts.length := by
  have hspec := hunkIndexOf_spec st hInv
  obtain ⟨hS, hH, hchS, hchH, hsel0, hseln, hafter, hhunks⟩ := hInv
  have hm : 0 < st.HunkStarts.length := List.length_pos.mpr hH
  have hknew : (if b then (if hunkIndexOf st = 0 then st.HunkStarts.length - 1
        else hunkIndexOf st - 1)
      else (if hunkIndexOf st = st.HunkStarts.length - 1 then 0 else hunkIndexOf st + 1)) =
      (hunkIndexOf st + (if b then st.HunkStarts.length - 1 else 1)) %
        st.HunkStarts.length := by
    cases b with
    | false =>
      simpa using succ_wrap_mod_pred (hunkIndexOf st) st.HunkStarts.length hspec.1
    | true =>
      simpa using pred_wrap_mod (hunkIndexOf st) st.HunkStarts.length hspec.1
  have hk2 : (hunkIndexOf st + (if b then st.HunkStarts.length - 1 else 1)) %
      st.HunkStarts.length < st.HunkStarts.length := Nat.mod_lt _ hm
  obtain ⟨s0, hs0mem, hs0in⟩ := hhunks _ hk2
  have hfia := firstIdxAbove_spec st.StageableLines
    (st.HunkStarts.getD ((hunkIndexOf st + (if b then st.HunkStarts.length - 1 else 1)) %
      st.HunkStarts.length) 0)
  cases hqa : firstIdxAbove st.StageableLines
      (st.HunkStarts.getD ((hunkIndexOf st + (if b then st.HunkStarts.length - 1 else 1)) %
        st.HunkStarts.length) 0) with
  | none =>
    rw [hqa] at hfia
    exact absurd (hfia s0 hs0mem) (not_le.mpr hs0in.1)
  | some j =>
    rw [hqa] at hfia
    obtain ⟨hjlen, hjgt, hjmin⟩ := hfia
    have hnxt : NextIndex st.StageableLines
        (st.HunkStarts.getD ((hunkIndexOf st + (if b then st.HunkStarts.length - 1 else 1)) %
          st.HunkStarts.length) 0) = j := by
      unfold NextIndex
      rw [hqa]
    have hrfl : handleCycleHunk b st =
        { st with SelectedLine :=
            ((NextIndex st.StageableLines (st.HunkStarts.getD
              (if b then (if hunkIndexOf st = 0 then st.HunkStarts.length - 1
                 else hunkIndexOf st - 1)
               else (if hunkIndexOf st = st.HunkStarts.length - 1 then 0
                 else hunkIndexOf st + 1)) 0) : Nat) : Int) } := rfl
    have hstep : handleCycleHunk b st = { st with SelectedLine := ((j : Nat) : Int) } := by
      rw [hrfl, hknew, hnxt]
    have hcl : currentLineOf (handleCycleHunk b st) = st.StageableLines.getD j 0 := by
      rw [hstep]
      unfold currentLineOf
      dsimp only
      rw [Int.toNat_natCast]
    refine ⟨?_, by rw [hstep], by rw [hstep], ?_⟩
    · rw [hstep]
      refine ⟨hS, hH, hchS, hchH, ?_, ?_, hafter, hhunks⟩
      · dsimp only
        positivity
      · dsimp only
        exact_mod_cast hjlen
    · have hidx : hunkIndexOf (handleCycleHunk b st) =
          PrevIndex st.HunkStarts (st.StageableLines.getD j 0) := by
        unfold hunkIndexOf
        rw [hcl, hstep]
      rw [hidx]
      apply PrevIndex_sorted st.HunkStarts _ _ hchH hk2 hjgt
      intro hlt2
      rcases List.mem_iff_get.mp hs0mem with ⟨i0, hi0⟩
      have hi0D : st.StageableLines.getD (i0 : Nat) 0 = s0 := by
        rw [List.getD_eq_getElem _ 0 i0.isLt, ← List.get_eq_getElem, hi0]
      have hji0 : j ≤ (i0 : Nat) := by
        by_contra hcon
        have := hjmin (i0 : Nat) (by omega)
        rw [hi0D] at this
        exact absurd this (not_le.mpr hs0in.1)
      have hle : st.StageableLines.getD j 0 ≤ st.StageableLines.getD (i0 : Nat) 0 :=
        chain_getD_le st.StageableLines hchS j (i0 : Nat) hji0 i0.isLt
      have hlt3 := hs0in.2 hlt2
      rw [hi0D] at hle
      omega

theorem handleCycleHunk_iter (b : Bool) (st : stagingPanelState) (hInv : SessionInv st)
    (t : Nat) :
    SessionInv ((handleCycleHunk b)^[t] st) ∧
    ((handleCycleHunk b)^[t] st).StageableLines = st.StageableLines ∧
    ((handleCycleHunk b)^[t] st).HunkStarts = st.HunkStarts ∧
    hunkIndexOf ((handleCycleHunk b)^[t] st) =
      (hunkIndexOf st + t * (if b then st.HunkStarts.length - 1 else 1)) %
        st.HunkStarts.length := by
  induction t generalizing st with
  | zero =>
    refine ⟨hInv, rfl, rfl, ?_⟩
    have := (hunkIndexOf_spec st hInv).1
    simp [Nat.mod_eq_of_lt this]
  | succ t ih =>
    obtain ⟨hstepInv, hstepS, hstepH, hstepIdx⟩ := handleCycleHunk_step b st hInv
    obtain ⟨hiv, hiS, hiH, hiIdx⟩ := ih (handleCycleHunk b st) hstepInv
    rw [Function.iterate_succ_apply]
    refine ⟨hiv, by rw [hiS, hstepS], by rw [hiH, hstepH], ?_⟩
    rw [hiIdx, hstepH, hstepIdx, Nat.mod_add_mod]
    congr 1
    ring

/-- Claim C8: cursor navigation is circular.  For every Active session
satisfying the session invariants (strictly increasing index tables, valid
cursor, every stageable line after the first hunk start, every hunk holding a
stageable line), applying handleCycleLine in one fixed direction
len(StageableLines) times returns the whole session, cursor included, to its
starting state, and applying handleCycleHunk in one fixed direction
len(HunkStarts) times returns the cursor to the hunk it started in. -/
theorem claim_C8 (st : stagingPanelState) (b : Bool) (hInv : SessionInv st) :
    (handleCycleLine b)^[st.StageableLines.length] st = st ∧
    hunkIndexOf ((handleCycleHunk b)^[st.HunkStarts.length] st) = hunkIndexOf st := by
  constructor
  · rw [handleCycleLine_iter b st hInv st.StageableLines.length]
    obtain ⟨hS, hH, hchS, hchH, hsel0, hseln, hafter, hhunks⟩ := hInv
    have hin : st.SelectedLine.toNat < st.StageableLines.length := by omega
    rw [Nat.add_mul_mod_self_left, Nat.mod_eq_of_lt hin, Int.toNat_of_nonneg hsel0]
  · rw [(handleCycleHunk_iter b st hInv st.HunkStarts.length).2.2.2,
      Nat.add_mul_mod_self_left, Nat.mod_eq_of_lt (hunkIndexOf_spec st hInv).1]

/-- Witness for claim C8: a concrete session with three stageable lines in two
hunks, cycled forward. -/
theorem claim_C8_witness :
    (handleCycleLine false)^[([(2 : Int), 3, 6] : List Int).length]
        ⟨[2, 3, 6], [1, 5], 0, []⟩ = ⟨[2, 3, 6], [1, 5], 0, []⟩ ∧
    hunkIndexOf ((handleCycleHunk false)^[([(1 : Int), 5] : List Int).length]
        ⟨[2, 3, 6], [1, 5], 0, []⟩) = hunkIndexOf ⟨[2, 3, 6], [1, 5], 0, []⟩ :=
  claim_C8 ⟨[2, 3, 6], [1, 5], 0, []⟩ false
    ⟨by decide, by decide,
     by norm_num [List.chain'_cons, List.chain'_singleton],
     by norm_num [List.chain'_cons, List.chain'_singleton],
     by decide, by decide, by decide, by decide⟩

/- ------------- splitting and joining lemmas ----------------------------- -/

theorem splitNL_cons (c : Char) (cs : Str) :
    splitNL (c :: cs) =
      (if c = '\n' then [] :: splitNL cs
       else match splitNL cs with
            | [] => [[c]]
            | l :: ls => (c :: l) :: ls) := rfl

theorem splitNL_no_nl (l : Str) (h : '\n' ∉ l) : splitNL l = [l] := by
  induction l with
  | nil => rfl
  | cons c cs ih =>
    have hc : ¬(c = '\n') := fun hc => h (by rw [hc]; exact List.mem_cons_self _ _)
    have hcs : '\n' ∉ cs := fun hm => h (List.mem_cons_of_mem c hm)
    simp only [splitNL, if_neg hc, ih hcs]

theorem splitNL_append (l r : Str) (h : '\n' ∉ l) :
    splitNL (l ++ '\n' :: r) = l :: splitNL r := by
  induction l with
  | nil => simp [splitNL]
  | cons c cs ih =>
    have hc : ¬(c = '\n') := fun hc => h (by rw [hc]; exact List.mem_cons_self _ _)
    have hcs : '\n' ∉ cs := fun hm => h (List.mem_cons_of_mem c hm)
    show splitNL (c :: (cs ++ '\n' :: r)) = (c :: cs) :: splitNL r
    rw [splitNL_cons, if_neg hc, ih hcs]

theorem splitNL_joinNL (L : List Str) (hL : L ≠ []) (h : ∀ l ∈ L, '\n' ∉ l) :
    splitNL (joinNL L) = L := by
  induction L with
  | nil => exact absurd rfl hL
  | cons l ls ih =>
    cases ls with
    | nil => exact splitNL_no_nl l (h l (List.mem_cons_self _ _))
    | cons l2 ls2 =>
      have hj : joinNL (l :: l2 :: ls2) = l ++ '\n' :: joinNL (l2 :: ls2) := rfl
      rw [hj, splitNL_append l _ (h l (List.mem_cons_self _ _))]
      rw [ih (by simp) (fun x hx => h x (List.mem_cons_of_mem l hx))]

theorem getD_append_length (p : List Str) (x : Str) (q : List Str) :
    (p ++ x :: q).getD p.length [] = x := by
  induction p with
  | nil => rfl
  | cons a p ih => simpa using ih

theorem drop_append_length_succ (p : List Str) (x : Str) (q : List Str) :
    (p ++ x :: q).drop (p.length + 1) = q := by
  induction p with
  | nil => rfl
  | cons a p ih => simpa using ih

theorem take_append_length (p : List Str) (q : List Str) :
    (p ++ q).take p.length = p := by
  induction p with
  | nil => rfl
  | cons a p ih => simpa using ih

/- ------------- digit conversion lemmas ---------------------------------- -/

theorem natToDigitsCore_succ (fuel n : Nat) (acc : Str) :
    natToDigitsCore (fuel + 1) n acc =
      (if n < 10 then digitChar (n % 10) :: acc
       else natToDigitsCore fuel (n / 10) (digitChar (n % 10) :: acc)) := rfl

theorem digitChar_isDigit (d : Nat) : (digitChar d).isDigit = true := by
  unfold digitChar
  split_ifs <;> decide

theorem charVal_digitChar (d : Nat) (hd : d < 10) : charVal (digitChar d) = d := by
  interval_cases d <;> decide

theorem natToDigitsCore_digits (fuel : Nat) :
    ∀ (n : Nat) (acc : Str), (∀ ch ∈ acc, ch.isDigit = true) →
      ∀ ch ∈ natToDigitsCore fuel n acc, ch.isDigit = true := by
  induction fuel with
  | zero =>
    intro n acc hacc ch hch
    rcases List.mem_cons.mp hch with rfl | hm
    · exact digitChar_isDigit _
    · exact hacc ch hm
  | succ fuel ih =>
    intro n acc hacc ch hch
    by_cases h10 : n < 10
    · rw [natToDigitsCore_succ, if_pos h10] at hch
      rcases List.mem_cons.mp hch with rfl | hm
      · exact digitChar_isDigit _
      · exact hacc ch hm
    · rw [natToDigitsCore_succ, if_neg h10] at hch
      refine ih (n / 10) (digitChar (n % 10) :: acc) ?_ ch hch
      intro x hx
      rcases List.mem_cons.mp hx with rfl | hm
      · exact digitChar_isDigit _
      · exact hacc x hm

theorem natToDigits_digits (n : Nat) : ∀ ch ∈ natToDigits n, ch.isDigit = true :=
  natToDigitsCore_digits n n [] (by intro x hx; cases hx)

theorem natToDigitsCore_ne_nil (fuel : Nat) :
    ∀ (n : Nat) (acc : Str), natToDigitsCore fuel n acc ≠ [] := by
  induction fuel with
  | zero => intro n acc; simp [natToDigitsCore]
  | succ fuel ih =>
    intro n acc
    by_cases h10 : n < 10
    · rw [natToDigitsCore_succ, if_pos h10]; simp
    · rw [natToDigitsCore_succ, if_neg h10]; exact ih _ _

theorem natToDigits_ne_nil (n : Nat) : natToDigits n ≠ [] :=
  natToDigitsCore_ne_nil n n []

theorem natToDigitsCore_acc (fuel : Nat) :
    ∀ (n : Nat) (acc : Str),
      natToDigitsCore fuel n acc = natToDigitsCore fuel n [] ++ acc := by
  induction fuel with
  | zero => intro n acc; rfl
  | succ fuel ih =>
    intro n acc
    by_cases h10 : n < 10
    · rw [natToDigitsCore_succ, natToDigitsCore_succ, if_pos h10, if_pos h10]; rfl
    · rw [natToDigitsCore_succ, natToDigitsCore_succ, if_neg h10, if_neg h10,
        ih (n / 10) (digitChar (n % 10) :: acc),
        ih (n / 10) [digitChar (n % 10)], List.append_assoc]
      rfl

theorem natToDigitsCore_val (fuel : Nat) :
    ∀ n : Nat, (n < 10 ∨ n ≤ fuel) → digitsVal (natToDigitsCore fuel n []) = n := by
  induction fuel with
  | zero =>
    intro n hn
    have h10 : n < 10 := by omega
    show digitsVal [digitChar (n % 10)] = n
    show 10 * 0 + charVal (digitChar (n % 10)) = n
    rw [charVal_digitChar (n % 10) (Nat.mod_lt _ (by norm_num))]
    omega
  | succ fuel ih =>
    intro n hn
    by_cases h10 : n < 10
    · rw [natToDigitsCore_succ, if_pos h10]
      show 10 * 0 + charVal (digitChar (n % 10)) = n
      rw [charVal_digitChar (n % 10) (Nat.mod_lt _ (by norm_num))]
      omega
    · rw [natToDigitsCore_succ, if_neg h10]
      rw [natToDigitsCore_acc fuel (n / 10) [digitChar (n % 10)]]
      unfold digitsVal
      rw [List.foldl_append]
      have hv : List.foldl (fun a ch => 10 * a + charVal ch) 0
          (natToDigitsCore fuel (n / 10) []) = n / 10 := by
        have := ih (n / 10) (by right; omega)
        exact this
      rw [hv]
      show 10 * (n / 10) + charVal (digitChar (n % 10)) = n
      rw [charVal_digitChar (n % 10) (Nat.mod_lt _ (by norm_num))]
      omega

theorem natToDigits_val (n : Nat) : digitsVal (natToDigits n) = n :=
  natToDigitsCore_val n n (by omega)

theorem wrap64_eq (x : Int) (h1 : -(2 : Int) ^ 63 ≤ x) (h2 : x < 2 ^ 63) :
    wrap64 x = x := by
  unfold wrap64
  rw [Int.emod_eq_of_lt (by omega) (by omega)]
  omega

/- ------------- scan lemmas for the header regular expressions ------------ -/

theorem takeWhile_run (run rest : Str) (hd : ∀ ch ∈ run, Char.isDigit ch = true)
    (hr : ∀ ch, rest.head? = some ch → Char.isDigit ch = false) :
    (run ++ rest).takeWhile Char.isDigit = run ∧
    (run ++ rest).dropWhile Char.isDigit = rest := by
  induction run with
  | nil =>
    cases rest with
    | nil => exact ⟨rfl, rfl⟩
    | cons c cs =>
      have hc := hr c rfl
      constructor
      · simp [List.takeWhile_cons, hc]
      · simp [List.dropWhile_cons, hc]
  | cons a run ih =>
    have ha : Char.isDigit a = true := hd a (List.mem_cons_self _ _)
    have ih2 := ih (fun ch hch => hd ch (List.mem_cons_of_mem a hch)) 
    constructor
    · simp only [List.cons_append, List.takeWhile_cons, ha, if_true, ih2.1]
    · simp only [List.cons_append, List.dropWhile_cons, ha, if_true, ih2.2]

theorem findFirstNum_cons (c : Char) (cs : Str) :
    findFirstNum (c :: cs) =
      (match matchNumAtAt (c :: cs) with
       | some (run, _) => some run
       | none => findFirstNum cs) := rfl

theorem matchNumAtAt_none_of_not_digit (c : Char) (cs : Str)
    (hc : Char.isDigit c = false) : matchNumAtAt (c :: cs) = none := by
  unfold matchNumAtAt
  simp [List.takeWhile_cons, hc]

theorem matchNumAtAt_run_none (run rest : Str) (hrun : run ≠ [])
    (hd : ∀ ch ∈ run, Char.isDigit ch = true)
    (hr : ∀ ch, rest.head? = some ch → Char.isDigit ch = false)
    (hpat : rest.take 3 ≠ spAtAtStr) : matchNumAtAt (run ++ rest) = none := by
  obtain ⟨ht, hdw⟩ := takeWhile_run run rest hd hr
  unfold matchNumAtAt
  rw [ht, hdw, if_neg hrun, if_neg hpat]

theorem matchNumAtAt_run_some (run ctx : Str) (hrun : run ≠ [])
    (hd : ∀ ch ∈ run, Char.isDigit ch = true) :
    matchNumAtAt (run ++ (' ' :: '@' :: '@' :: ctx)) = some (run, ctx) := by
  obtain ⟨ht, hdw⟩ := takeWhile_run run (' ' :: '@' :: '@' :: ctx) hd
    (by intro ch hch; cases hch; decide)
  unfold matchNumAtAt
  rw [ht, hdw, if_neg hrun, if_pos (by simp [spAtAtStr])]
  simp

theorem findFirstNum_cons_nondigit (c : Char) (s : Str)
    (hc : Char.isDigit c = false) : findFirstNum (c :: s) = findFirstNum s := by
  rw [findFirstNum_cons, matchNumAtAt_none_of_not_digit c s hc]

theorem findFirstNum_run_skip (run rest : Str)
    (hd : ∀ ch ∈ run, Char.isDigit ch = true)
    (hr : ∀ ch, rest.head? = some ch → Char.isDigit ch = false)
    (hpat : rest.take 3 ≠ spAtAtStr) :
    findFirstNum (run ++ rest) = findFirstNum rest := by
  induction run with
  | nil => rfl
  | cons a run ih =>
    have hm : matchNumAtAt ((a :: run) ++ rest) = none :=
      matchNumAtAt_run_none (a :: run) rest (by simp) hd hr hpat
    rw [List.cons_append] at hm ⊢
    rw [findFirstNum_cons, hm]
    exact ih (fun ch hch => hd ch (List.mem_cons_of_mem a hch))

theorem findFirstNum_run_match (run ctx : Str) (hrun : run ≠ [])
    (hd : ∀ ch ∈ run, Char.isDigit ch = true) :
    findFirstNum (run ++ (' ' :: '@' :: '@' :: ctx)) = some run := by
  cases run with
  | nil => exact absurd rfl hrun
  | cons a run =>
    have hm := matchNumAtAt_run_some (a :: run) ctx (by simp) hd
    rw [List.cons_append] at hm ⊢
    rw [findFirstNum_cons, hm]

theorem replaceAllNumFuel_succ_cons (new : Str) (fuel : Nat) (c : Char) (cs : Str) :
    replaceAllNumFuel new (fuel + 1) (c :: cs) =
      (if ((c :: cs).takeWhile Char.isDigit ≠ [] ∧
          (((c :: cs).dropWhile Char.isDigit).take 3 = spAtAtStr)) then
        new ++ spAtAtStr ++
          replaceAllNumFuel new fuel (((c :: cs).dropWhile Char.isDigit).drop 3)
      else
        c :: replaceAllNumFuel new fuel cs) := rfl

theorem dropWhile_length_le (p : Char → Bool) :
    ∀ l : Str, (l.dropWhile p).length ≤ l.length := by
  intro l
  induction l with
  | nil => simp [List.dropWhile]
  | cons x xs ih =>
    rw [List.dropWhile_cons]
    by_cases hx : p x
    · simp only [hx, if_true, List.length_cons]; omega
    · simp [hx]

theorem match_rest_len_le (c : Char) (cs : Str)
    (hcond : (c :: cs).takeWhile Char.isDigit ≠ []) :
    (((c :: cs).dropWhile Char.isDigit).drop 3).length ≤ cs.length := by
  have hc : Char.isDigit c = true := by
    by_contra hc2
    rw [Bool.not_eq_true] at hc2
    simp [List.takeWhile_cons, hc2] at hcond
  have h1 : ((c :: cs).dropWhile Char.isDigit).length ≤ cs.length := by
    rw [List.dropWhile_cons]
    simp only [hc, if_true]
    exact dropWhile_length_le _ cs
  have h2 := List.length_drop 3 ((c :: cs).dropWhile Char.isDigit)
  omega

theorem replaceAllNumFuel_no_match (new : Str) (fuel : Nat) :
    ∀ s : Str, findFirstNum s = none → replaceAllNumFuel new fuel s = s := by
  induction fuel with
  | zero => intro s _; cases s <;> rfl
  | succ fuel ih =>
    intro s h
    cases s with
    | nil => rfl
    | cons c cs =>
      have h1 : matchNumAtAt (c :: cs) = none := by
        rw [findFirstNum_cons] at h
        cases hm : matchNumAtAt (c :: cs) with
        | none => rfl
        | some p =>
          rw [hm] at h
          obtain ⟨r, s2⟩ := p
          simp at h
      have h2 : findFirstNum cs = none := by
        rw [findFirstNum_cons, h1] at h
        exact h
      have hcond : ¬((c :: cs).takeWhile Char.isDigit ≠ [] ∧
          (((c :: cs).dropWhile Char.isDigit).take 3 = spAtAtStr)) := by
        rintro ⟨hrun, hpat⟩
        unfold matchNumAtAt at h1
        rw [if_neg hrun, if_pos hpat] at h1
        cases h1
      rw [replaceAllNumFuel_succ_cons, if_neg hcond, ih cs h2]

theorem replaceAllNumFuel_of_ge (new : Str) :
    ∀ fuel : Nat, ∀ s : Str, s.length ≤ fuel →
      replaceAllNumFuel new fuel s = replaceAllNumFuel new s.length s := by
  intro fuel
  induction fuel using Nat.strong_induction_on with
  | _ fuel ih =>
    intro s hlen
    cases fuel with
    | zero =>
      cases s with
      | nil => rfl
      | cons c cs => simp at hlen
    | succ fuel =>
      cases s with
      | nil => rfl
      | cons c cs =>
        have hlen2 : cs.length ≤ fuel := by
          simp only [List.length_cons] at hlen
          omega
        by_cases hcond : ((c :: cs).takeWhile Char.isDigit ≠ [] ∧
            (((c :: cs).dropWhile Char.isDigit).take 3 = spAtAtStr))
        · have hrest := match_rest_len_le c cs hcond.1
          rw [replaceAllNumFuel_succ_cons, if_pos hcond,
            show (c :: cs).length = cs.length + 1 from rfl,
            replaceAllNumFuel_succ_cons, if_pos hcond]
          rw [ih fuel (by omega) (((c :: cs).dropWhile Char.isDigit).drop 3) (by omega),
            ih cs.length (by omega) (((c :: cs).dropWhile Char.isDigit).drop 3) (by omega)]
        · rw [replaceAllNumFuel_succ_cons, if_neg hcond,
            show (c :: cs).length = cs.length + 1 from rfl,
            replaceAllNumFuel_succ_cons, if_neg hcond]
          rw [ih fuel (by omega) cs (by omega)]

theorem replaceAllNum_cons_nondigit (new : Str) (c : Char) (s : Str)
    (hc : Char.isDigit c = false) :
    replaceAllNum new (c :: s) = c :: replaceAllNum new s := by
  unfold replaceAllNum
  rw [show (c :: s).length = s.length + 1 from rfl, replaceAllNumFuel_succ_cons,
    if_neg (by simp [List.takeWhile_cons, hc])]

theorem replaceAllNum_run_skip (new : Str) (run rest : Str)
    (hd : ∀ ch ∈ run, Char.isDigit ch = true)
    (hr : ∀ ch, rest.head? = some ch → Char.isDigit ch = false)
    (hpat : rest.take 3 ≠ spAtAtStr) :
    replaceAllNum new (run ++ rest) = run ++ replaceAllNum new rest := by
  induction run with
  | nil => rfl
  | cons a run ih =>
    obtain ⟨ht, hdw⟩ := takeWhile_run (a :: run) rest hd hr
    have hcond : ¬(((a :: run) ++ rest).takeWhile Char.isDigit ≠ [] ∧
        ((((a :: run) ++ rest).dropWhile Char.isDigit).take 3 = spAtAtStr)) := by
      rintro ⟨_, hp⟩
      rw [hdw] at hp
      exact hpat hp
    unfold replaceAllNum
    rw [List.cons_append,
      show (a :: (run ++ rest)).length = (run ++ rest).length + 1 from rfl,
      replaceAllNumFuel_succ_cons]
    rw [List.cons_append] at hcond
    rw [if_neg hcond, List.cons_append]
    congr 1
    exact ih (fun ch hch => hd ch (List.mem_cons_of_mem a hch))

theorem replaceAllNum_run_match (new : Str) (run ctx : Str) (hrun : run ≠ [])
    (hd : ∀ ch ∈ run, Char.isDigit ch = true) (hctx : findFirstNum ctx = none) :
    replaceAllNum new (run ++ (' ' :: '@' :: '@' :: ctx)) =
      new ++ (' ' :: '@' :: '@' :: ctx) := by
  cases run with
  | nil => exact absurd rfl hrun
  | cons a run =>
    obtain ⟨ht, hdw⟩ := takeWhile_run (a :: run) (' ' :: '@' :: '@' :: ctx) hd
      (by intro ch hch; cases hch; decide)
    have hcond : ((a :: run) ++ (' ' :: '@' :: '@' :: ctx)).takeWhile Char.isDigit ≠ [] ∧
        ((((a :: run) ++ (' ' :: '@' :: '@' :: ctx)).dropWhile
          Char.isDigit).take 3 = spAtAtStr) := by
      rw [ht, hdw]
      exact ⟨by simp, by simp [spAtAtStr]⟩
    unfold replaceAllNum
    rw [List.cons_append,
      show (a :: (run ++ (' ' :: '@' :: '@' :: ctx))).length =
        (run ++ (' ' :: '@' :: '@' :: ctx)).length + 1 from rfl,
      replaceAllNumFuel_succ_cons]
    rw [List.cons_append] at hcond
    rw [if_pos hcond]
    rw [List.cons_append] at hdw
    rw [hdw]
    have hdrop : ((' ' :: '@' :: '@' :: ctx).drop 3) = ctx := rfl
    rw [hdrop, replaceAllNumFuel_no_match new _ ctx hctx]
    simp [spAtAtStr]

theorem findFirstNum_mkHeader (a b c : Nat) (dstr ctx : Str) (hdstr : dstr ≠ [])
    (hdd : ∀ ch ∈ dstr, Char.isDigit ch = true) :
    findFirstNum (mkHeader a b c dstr ctx) = some dstr := by
  unfold mkHeader atatStr spAtAtStr
  simp only [List.append_assoc, List.singleton_append, List.cons_append, List.nil_append]
  rw [findFirstNum_cons_nondigit _ _ (by decide),
    findFirstNum_cons_nondigit _ _ (by decide),
    findFirstNum_cons_nondigit _ _ (by decide),
    findFirstNum_cons_nondigit _ _ (by decide)]
  rw [findFirstNum_run_skip (natToDigits a) _ (natToDigits_digits a)
    (by intro ch hch; cases hch; decide) (by simp [spAtAtStr])]
  rw [findFirstNum_cons_nondigit _ _ (by decide)]
  rw [findFirstNum_run_skip (natToDigits b) _ (natToDigits_digits b)
    (by intro ch hch; cases hch; decide) (by simp [spAtAtStr])]
  rw [findFirstNum_cons_nondigit _ _ (by decide),
    findFirstNum_cons_nondigit _ _ (by decide)]
  rw [findFirstNum_run_skip (natToDigits c) _ (natToDigits_digits c)
    (by intro ch hch; cases hch; decide) (by simp [spAtAtStr])]
  rw [findFirstNum_cons_nondigit _ _ (by decide)]
  exact findFirstNum_run_match dstr ctx hdstr hdd

theorem replaceAllNum_mkHeader (a b c : Nat) (dstr ctx new : Str) (hdstr : dstr ≠ [])
    (hdd : ∀ ch ∈ dstr, Char.isDigit ch = true) (hctx : findFirstNum ctx = none) :
    replaceAllNum new (mkHeader a b c dstr ctx) = mkHeader a b c new ctx := by
  unfold mkHeader atatStr spAtAtStr
  simp only [List.append_assoc, List.singleton_append, List.cons_append, List.nil_append]
  rw [replaceAllNum_cons_nondigit _ _ _ (by decide),
    replaceAllNum_cons_nondigit _ _ _ (by decide),
    replaceAllNum_cons_nondigit _ _ _ (by decide),
    replaceAllNum_cons_nondigit _ _ _ (by decide)]
  rw [replaceAllNum_run_skip _ (natToDigits a) _ (natToDigits_digits a)
    (by intro ch hch; cases hch; decide) (by simp [spAtAtStr])]
  rw [replaceAllNum_cons_nondigit _ _ _ (by decide)]
  rw [replaceAllNum_run_skip _ (natToDigits b) _ (natToDigits_digits b)
    (by intro ch hch; cases hch; decide) (by simp [spAtAtStr])]
  rw [replaceAllNum_cons_nondigit _ _ _ (by decide),
    replaceAllNum_cons_nondigit _ _ _ (by decide)]
  rw [replaceAllNum_run_skip _ (natToDigits c) _ (natToDigits_digits c)
    (by intro ch hch; cases hch; decide) (by simp [spAtAtStr])]
  rw [replaceAllNum_cons_nondigit _ _ _ (by decide)]
  rw [replaceAllNum_run_match new dstr ctx hdstr hdd hctx]

theorem goAtoi_natToDigits (d : Nat) (hdmax : (d : Int) ≤ i64Max) :
    goAtoi (natToDigits d) = GoRes.ok (d : Int) := by
  unfold goAtoi
  rw [natToDigits_val d, if_pos hdmax]

theorem updatedHeader_mkHeader (a b c d : Nat) (ctx : Str) (lc : Int)
    (hdmax : (d : Int) ≤ i64Max)
    (hlo : -(2 : Int) ^ 63 ≤ (d : Int) + lc) (hhi : (d : Int) + lc < 2 ^ 63)
    (hctx : findFirstNum ctx = none) :
    updatedHeader (mkHeader a b c (natToDigits d) ctx) lc =
      GoRes.ok (mkHeader a b c (intToDigits ((d : Int) + lc)) ctx) := by
  simp only [updatedHeader,
    findFirstNum_mkHeader a b c (natToDigits d) ctx (natToDigits_ne_nil d)
      (natToDigits_digits d),
    goAtoi_natToDigits d hdmax]
  rw [wrap64_eq _ hlo hhi]
  rw [replaceAllNum_mkHeader a b c (natToDigits d) ctx _ (natToDigits_ne_nil d)
    (natToDigits_digits d) hctx]

/- ------------- scan lemmas for header length and hunk start -------------- -/

theorem getHeaderLengthAux_cons (n : Nat) (l : Str) (ls : List Str) :
    getHeaderLengthAux n (l :: ls) =
      (if l.take 2 = atatStr then some n else getHeaderLengthAux (n + 1) ls) := rfl

theorem getHunkStartAux_cons (ln : Int) (i hs : Nat) (l : Str) (ls : List Str) :
    getHunkStartAux ln i hs (l :: ls) =
      (if (i : Int) = ln then some (if l.take 2 = atatStr then i else hs)
       else getHunkStartAux ln (i + 1) (if l.take 2 = atatStr then i else hs) ls) := rfl

theorem getHeaderLengthAux_prefix (fh : List Str) (hdr : Str) (tail : List Str) (n : Nat)
    (hfh : ∀ l ∈ fh, l.take 2 ≠ atatStr) (hhdr : hdr.take 2 = atatStr) :
    getHeaderLengthAux n (fh ++ hdr :: tail) = some (n + fh.length) := by
  induction fh generalizing n with
  | nil => simp [getHeaderLengthAux_cons, hhdr]
  | cons l fh ih =>
    have hl := hfh l (List.mem_cons_self _ _)
    rw [List.cons_append, getHeaderLengthAux_cons, if_neg hl,
      ih (n + 1) (fun x hx => hfh x (List.mem_cons_of_mem l hx))]
    congr 1
    simp
    omega

theorem getHunkStartAux_skip (p : List Str) (q : List Str) (ln : Int) (hs : Nat)
    (hp : ∀ l ∈ p, l.take 2 ≠ atatStr) :
    ∀ i : Nat, (i : Int) + p.length ≤ ln →
      getHunkStartAux ln i hs (p ++ q) = getHunkStartAux ln (i + p.length) hs q := by
  induction p with
  | nil => intro i _; simp
  | cons l p ih =>
    intro i hln
    have hl := hp l (List.mem_cons_self _ _)
    have hne : (i : Int) ≠ ln := by
      simp only [List.length_cons] at hln
      push_cast at hln
      omega
    rw [List.cons_append, getHunkStartAux_cons, if_neg hne, if_neg hl]
    rw [ih (fun x hx => hp x (List.mem_cons_of_mem l hx)) (i + 1) (by
      simp only [List.length_cons] at hln
      push_cast at hln ⊢
      omega)]
    congr 1
    simp
    omega

theorem getHunkStartAux_hdr (hdr : Str) (q : List Str) (ln : Int) (i hs : Nat)
    (hhdr : hdr.take 2 = atatStr) (hne : (i : Int) ≠ ln) :
    getHunkStartAux ln i hs (hdr :: q) = getHunkStartAux ln (i + 1) i q := by
  rw [getHunkStartAux_cons, if_neg hne, if_pos hhdr]

theorem getHunkStartAux_at (l : Str) (q : List Str) (ln : Int) (i hs : Nat)
    (hl : l.take 2 ≠ atatStr) (he : (i : Int) = ln) :
    getHunkStartAux ln i hs (l :: q) = some hs := by
  rw [getHunkStartAux_cons, if_pos he, if_neg hl]

theorem take_two_ne_atat (l : Str) (h : l.take 1 = ['-'] ∨ l.take 1 = ['+']) :
    l.take 2 ≠ atatStr := by
  cases l with
  | nil => rcases h with h | h <;> simp [List.take] at h
  | cons c cs =>
    have hc : c = '-' ∨ c = '+' := by
      rcases h with h | h <;> simp at h <;> [left; right] <;> exact h
    rcases hc with rfl | rfl <;> simp [atatStr]

/-- getHunkStart on a structured diff: file header without hunk-start lines,
then the header line, then body lines without hunk-start lines; the probe
points into the body. -/
theorem getHunkStart_structured (fh : List Str) (hdr : Str) (body1 : List Str)
    (tgt : Str) (tail : List Str)
    (hfh : ∀ l ∈ fh, l.take 2 ≠ atatStr) (hhdr : hdr.take 2 = atatStr)
    (hb1 : ∀ l ∈ body1, l.take 2 ≠ atatStr) (htgt : tgt.take 2 ≠ atatStr) :
    getHunkStart (fh ++ hdr :: (body1 ++ tgt :: tail))
        ((fh.length : Int) + 1 + body1.length) = GoRes.ok fh.length := by
  unfold getHunkStart
  rw [getHunkStartAux_skip fh (hdr :: (body1 ++ tgt :: tail)) _ 0 hfh 0
    (by push_cast; omega)]
  simp only [Nat.zero_add]
  rw [getHunkStartAux_hdr hdr _ _ _ _ hhdr (by push_cast; omega)]
  rw [getHunkStartAux_skip body1 (tgt :: tail) _ _ hb1 (fh.length + 1)
    (by push_cast; omega)]
  rw [getHunkStartAux_at tgt tail _ _ _ htgt (by push_cast; omega)]

/- ------------- hunk body walk lemmas ------------------------------------ -/

theorem singleLineLoop_cons (ln : Int) (idx : Nat) (l : Str) (ls : List Str) :
    singleLineLoop ln idx (l :: ls) =
      (if l.take 2 = atatStr then ([['\n']], 0)
       else if ((idx : Int) ≠ ln ∧ l.take 1 = ['-']) then
         ((' ' :: l.drop 1) :: (singleLineLoop ln (idx + 1) ls).1,
          (singleLineLoop ln (idx + 1) ls).2 + 1)
       else if ((idx : Int) ≠ ln ∧ l.take 1 = ['+']) then
         ((singleLineLoop ln (idx + 1) ls).1, (singleLineLoop ln (idx + 1) ls).2 - 1)
       else (l :: (singleLineLoop ln (idx + 1) ls).1,
          (singleLineLoop ln (idx + 1) ls).2)) := rfl

theorem removedLineLoop_cons (ln : Int) (idx : Nat) (lri : Int) (l : Str) (ls : List Str) :
    removedLineLoop ln idx lri (l :: ls) =
      (if l.take 2 = atatStr then ([['\n']], 0)
       else if ((idx : Int) = ln ∧ l.take 1 = ['-']) then
         ((' ' :: l.drop 1) :: (removedLineLoop ln (idx + 1) (idx : Int) ls).1,
          (removedLineLoop ln (idx + 1) (idx : Int) ls).2 + 1)
       else if ((idx : Int) = ln ∧ l.take 1 = ['+']) then
         ((removedLineLoop ln (idx + 1) lri ls).1,
          (removedLineLoop ln (idx + 1) lri ls).2 - 1)
       else (l :: (removedLineLoop ln (idx + 1) lri ls).1,
          (removedLineLoop ln (idx + 1) lri ls).2)) := rfl

theorem singleLineLoop_split (ln : Int) (q : List Str) :
    ∀ (p : List Str), (∀ l ∈ p, l.take 2 ≠ atatStr) →
      ∀ idx : Nat,
        singleLineLoop ln idx (p ++ q) =
          (stageOneTransform (ln - idx) p ++ (singleLineLoop ln (idx + p.length) q).1,
           stageOneChanges (ln - idx) p + (singleLineLoop ln (idx + p.length) q).2) := by
  intro p
  induction p with
  | nil =>
    intro _ idx
    simp [stageOneTransform, stageOneChanges]
  | cons l p ih =>
    intro hp idx
    have hl : l.take 2 ≠ atatStr := hp l (List.mem_cons_self _ _)
    have hp2 : ∀ x ∈ p, x.take 2 ≠ atatStr := fun x hx => hp x (List.mem_cons_of_mem l hx)
    have hlen : idx + (l :: p).length = (idx + 1) + p.length := by simp; omega
    have hshift : ln - ((idx : Int) + 1) = (ln - idx) - 1 := by ring
    have hcast : (((idx + 1 : Nat)) : Int) = (idx : Int) + 1 := by push_cast; ring
    rw [List.cons_append, singleLineLoop_cons, if_neg hl, ih hp2 (idx + 1), hlen]
    by_cases he : (idx : Int) = ln
    · have ht0 : ln - (idx : Int) = 0 := by omega
      rw [if_neg (by rintro ⟨hne, _⟩; exact hne he),
        if_neg (by rintro ⟨hne, _⟩; exact hne he)]
      simp only [stageOneTransform, stageOneChanges, ht0, if_pos rfl, hcast, hshift]
      rw [Prod.mk.injEq]
      refine ⟨by simp, by simp⟩
    · have ht0 : ln - (idx : Int) ≠ 0 := by omega
      by_cases hmn : l.take 1 = ['-']
      · rw [if_pos ⟨he, hmn⟩]
        simp only [stageOneTransform, stageOneChanges, if_neg ht0, if_pos hmn,
          hcast, hshift]
        rw [Prod.mk.injEq]
        refine ⟨by simp, by omega⟩
      · by_cases hpl : l.take 1 = ['+']
        · rw [if_neg (by rintro ⟨_, hx⟩; exact hmn hx), if_pos ⟨he, hpl⟩]
          simp only [stageOneTransform, stageOneChanges, if_neg ht0, if_neg hmn,
            if_pos hpl, hcast, hshift]
          rw [Prod.mk.injEq]
          refine ⟨by simp, by omega⟩
        · rw [if_neg (by rintro ⟨_, hx⟩; exact hmn hx),
            if_neg (by rintro ⟨_, hx⟩; exact hpl hx)]
          simp only [stageOneTransform, stageOneChanges, if_neg ht0, if_neg hmn,
            if_neg hpl, hcast, hshift]
          rw [Prod.mk.injEq]
          refine ⟨by simp, by omega⟩

theorem removedLineLoop_lri_irrel (ln : Int) :
    ∀ (p : List Str) (idx : Nat) (l1 l2 : Int),
      removedLineLoop ln idx l1 p = removedLineLoop ln idx l2 p := by
  intro p
  induction p with
  | nil => intros; rfl
  | cons l p ih =>
    intro idx l1 l2
    rw [removedLineLoop_cons, removedLineLoop_cons]
    by_cases h1 : l.take 2 = atatStr
    · rw [if_pos h1, if_pos h1]
    · rw [if_neg h1, if_neg h1]
      by_cases h2 : (idx : Int) = ln ∧ l.take 1 = ['-']
      · rw [if_pos h2, if_pos h2]
      · rw [if_neg h2, if_neg h2]
        by_cases h3 : (idx : Int) = ln ∧ l.take 1 = ['+']
        · rw [if_pos h3, if_pos h3, ih (idx + 1) l1 l2]
        · rw [if_neg h3, if_neg h3, ih (idx + 1) l1 l2]

theorem removedLineLoop_split (ln : Int) (q : List Str) :
    ∀ (p : List Str), (∀ l ∈ p, l.take 2 ≠ atatStr) →
      ∀ (idx : Nat) (lri : Int),
        removedLineLoop ln idx lri (p ++ q) =
          (dropOneTransform (ln - idx) p ++ (removedLineLoop ln (idx + p.length) 0 q).1,
           dropOneChanges (ln - idx) p + (removedLineLoop ln (idx + p.length) 0 q).2) := by
  intro p
  induction p with
  | nil =>
    intro _ idx lri
    simp only [List.nil_append, dropOneTransform, dropOneChanges, List.length_nil,
      Nat.add_zero, List.nil_append, zero_add]
    rw [removedLineLoop_lri_irrel ln q idx lri 0]
  | cons l p ih =>
    intro hp idx lri
    have hl : l.take 2 ≠ atatStr := hp l (List.mem_cons_self _ _)
    have hp2 : ∀ x ∈ p, x.take 2 ≠ atatStr := fun x hx => hp x (List.mem_cons_of_mem l hx)
    have hlen : idx + (l :: p).length = (idx + 1) + p.length := by simp; omega
    have hshift : ln - ((idx : Int) + 1) = (ln - idx) - 1 := by ring
    have hcast : (((idx + 1 : Nat)) : Int) = (idx : Int) + 1 := by push_cast; ring
    rw [List.cons_append, removedLineLoop_cons, if_neg hl]
    by_cases he : (idx : Int) = ln
    · have ht0 : ln - (idx : Int) = 0 := by omega
      by_cases hmn : l.take 1 = ['-']
      · rw [if_pos ⟨he, hmn⟩, ih hp2 (idx + 1) (idx : Int), hlen]
        simp only [dropOneTransform, dropOneChanges, ht0, hcast, hshift]
        rw [if_pos ⟨trivial, hmn⟩, if_pos ⟨trivial, hmn⟩]
        rw [Prod.mk.injEq]
        refine ⟨by simp, by omega⟩
      · by_cases hpl : l.take 1 = ['+']
        · rw [if_neg (by rintro ⟨_, hx⟩; exact hmn hx), if_pos ⟨he, hpl⟩,
            ih hp2 (idx + 1) lri, hlen]
          simp only [dropOneTransform, dropOneChanges, ht0, hcast, hshift]
          rw [if_neg (by rintro ⟨_, hx⟩; exact hmn hx),
            if_pos ⟨trivial, hpl⟩,
            if_neg (by rintro ⟨_, hx⟩; exact hmn hx),
            if_pos ⟨trivial, hpl⟩]
          rw [Prod.mk.injEq]
          refine ⟨by simp, by omega⟩
        · rw [if_neg (by rintro ⟨_, hx⟩; exact hmn hx),
            if_neg (by rintro ⟨_, hx⟩; exact hpl hx),
            ih hp2 (idx + 1) lri, hlen]
          simp only [dropOneTransform, dropOneChanges, ht0, hcast, hshift]
          rw [if_neg (by rintro ⟨_, hx⟩; exact hmn hx),
            if_neg (by rintro ⟨_, hx⟩; exact hpl hx),
            if_neg (by rintro ⟨_, hx⟩; exact hmn hx),
            if_neg (by rintro ⟨_, hx⟩; exact hpl hx)]
          rw [Prod.mk.injEq]
          refine ⟨by simp, by omega⟩
    · have ht0 : (ln - (idx : Int) = 0) → False := by omega
      rw [if_neg (by rintro ⟨hx, _⟩; exact he hx),
        if_neg (by rintro ⟨hx, _⟩; exact he hx),
        ih hp2 (idx + 1) lri, hlen]
      simp only [dropOneTransform, dropOneChanges, hcast, hshift]
      rw [if_neg (by rintro ⟨hx, _⟩; exact ht0 hx),
        if_neg (by rintro ⟨hx, _⟩; exact ht0 hx)]
      rw [Prod.mk.injEq]
      refine ⟨by simp, by omega⟩

theorem singleLineLoop_rest (ln : Int) (idx : Nat) (rest : List Str)
    (hrest : rest = [] ∨ ∃ r rs, rest = r :: rs ∧ r.take 2 = atatStr) :
    singleLineLoop ln idx rest = ((if rest = [] then [] else [['\n']]), 0) := by
  rcases hrest with rfl | ⟨r, rs, rfl, hr⟩
  · rfl
  · rw [singleLineLoop_cons, if_pos hr]
    simp

theorem removedLineLoop_rest (ln : Int) (idx : Nat) (lri : Int) (rest : List Str)
    (hrest : rest = [] ∨ ∃ r rs, rest = r :: rs ∧ r.take 2 = atatStr) :
    removedLineLoop ln idx lri rest = ((if rest = [] then [] else [['\n']]), 0) := by
  rcases hrest with rfl | ⟨r, rs, rfl, hr⟩
  · rfl
  · rw [removedLineLoop_cons, if_pos hr]
    simp

theorem not_mem_append2 (x : Char) (p q : Str) (hp : x ∉ p) (hq : x ∉ q) :
    x ∉ p ++ q := by
  intro h
  rcases List.mem_append.mp h with h | h
  · exact hp h
  · exact hq h

theorem nl_not_mem_natToDigits (n : Nat) : '\n' ∉ natToDigits n := by
  intro h
  have h2 := natToDigits_digits n '\n' h
  exact absurd h2 (by decide)

theorem nl_not_mem_mkHeader (a b c : Nat) (dstr ctx : Str)
    (hd : '\n' ∉ dstr) (hc : '\n' ∉ ctx) : '\n' ∉ mkHeader a b c dstr ctx := by
  unfold mkHeader atatStr spAtAtStr
  refine not_mem_append2 _ _ _ ?_ hc
  refine not_mem_append2 _ _ _ ?_ (by decide)
  refine not_mem_append2 _ _ _ ?_ hd
  refine not_mem_append2 _ _ _ ?_ (by decide)
  refine not_mem_append2 _ _ _ ?_ (nl_not_mem_natToDigits c)
  refine not_mem_append2 _ _ _ ?_ (by decide)
  refine not_mem_append2 _ _ _ ?_ (nl_not_mem_natToDigits b)
  refine not_mem_append2 _ _ _ ?_ (by decide)
  refine not_mem_append2 _ _ _ ?_ (nl_not_mem_natToDigits a)
  exact not_mem_append2 _ _ _ (by decide) (by decide)

theorem mkHeader_take_two (a b c : Nat) (dstr ctx : Str) :
    (mkHeader a b c dstr ctx).take 2 = atatStr := rfl

/-- Claim C2, counterexample: a hunk header whose trailing context itself
contains a digit run before a pair of at-signs.  The Go header rewrite replaces
every occurrence of the digits-at-at pattern, so the character 5 in the
trailing context is rewritten to the new count 3 and is not preserved, even
though the staged line leaves lineChanges at zero. -/
theorem claim_C2_counterexample :
    ObtainPatchForLine ("--- f\n@@ -1,2 +1,3 @@ x 5 @@\n+b\n c\n".data) 2 =
      GoRes.ok ("--- f\n@@ -1,2 +1,3 @@ x 3 @@\n+b\n c\n".data) ∧
    ObtainPatchForLine ("--- f\n@@ -1,2 +1,3 @@ x 5 @@\n+b\n c\n".data) 2 ≠
      GoRes.ok ("--- f\n@@ -1,2 +1,3 @@ x 5 @@\n+b\n c\n".data) := by
  refine ⟨by decide, by decide⟩

/-- Claim C2, amended: for every structured diff — file header lines without
hunk-start markers, a well-formed hunk header with post-image count d whose
trailing context is free of the digits-at-at pattern, a hunk body, and either
nothing or a following hunk — and a target body line carrying a change marker,
ObtainPatchForLine returns the file header followed by the enclosing hunk
rewritten so that the target keeps its marker, every other removal is demoted
to a context line counting plus one toward lineChanges, every other addition is
omitted counting minus one, pure context lines pass through unchanged, and the
header's post-image count becomes d plus lineChanges.  In general the Go
rewrite replaces every digit run standing before a closing pair of at-signs in
the header line; the context hypothesis makes the count field the only such
run, and then every other character of the header is preserved. -/
theorem claim_C2_amended
    (fh : List Str) (hfh : ∀ l ∈ fh, l.take 2 ≠ atatStr ∧ '\n' ∉ l)
    (a b c d : Nat) (ctx : Str) (hctxf : findFirstNum ctx = none) (hctxn : '\n' ∉ ctx)
    (hdmax : (d : Int) ≤ i64Max)
    (body1 : List Str) (tgt : Str) (body2 : List Str)
    (hb : ∀ l ∈ body1 ++ tgt :: body2, l.take 2 ≠ atatStr ∧ '\n' ∉ l)
    (htgt : tgt.take 1 = ['-'] ∨ tgt.take 1 = ['+'])
    (rest : List Str)
    (hrest : rest = [] ∨ ∃ r rs, rest = r :: rs ∧ r.take 2 = atatStr)
    (hrestn : ∀ l ∈ rest, '\n' ∉ l)
    (hlo : -(2 : Int) ^ 63 ≤ (d : Int) +
      stageOneChanges ((body1.length : Int)) (body1 ++ tgt :: body2))
    (hhi : (d : Int) +
      stageOneChanges ((body1.length : Int)) (body1 ++ tgt :: body2) < 2 ^ 63) :
    ObtainPatchForLine
        (joinNL (fh ++ mkHeader a b c (natToDigits d) ctx ::
          ((body1 ++ tgt :: body2) ++ rest)))
        ((fh.length : Int) + 1 + body1.length) =
      GoRes.ok
        (joinNL fh ++ '\n' ::
          joinNL (mkHeader a b c (intToDigits ((d : Int) +
              stageOneChanges ((body1.length : Int)) (body1 ++ tgt :: body2))) ctx ::
            (stageOneTransform ((body1.length : Int)) (body1 ++ tgt :: body2) ++
              (if rest = [] then [] else [['\n']])))) := by
  set hdr := mkHeader a b c (natToDigits d) ctx with hhdrdef
  set bodyAll := body1 ++ tgt :: body2 with hbodydef
  set L := fh ++ hdr :: (bodyAll ++ rest) with hLdef
  set ln : Int := (fh.length : Int) + 1 + body1.length with hlndef
  have hnlhdr : '\n' ∉ hdr :=
    nl_not_mem_mkHeader a b c _ ctx (nl_not_mem_natToDigits d) hctxn
  have hLnl : ∀ l ∈ L, '\n' ∉ l := by
    intro l hl
    rw [hLdef] at hl
    rcases List.mem_append.mp hl with h | h
    · exact (hfh l h).2
    · rcases List.mem_cons.mp h with rfl | h
      · exact hnlhdr
      · rcases List.mem_append.mp h with h | h
        · exact (hb l h).2
        · exact hrestn l h
  have hsplit : splitNL (joinNL L) = L := by
    apply splitNL_joinNL L ?_ hLnl
    rw [hLdef]
    intro hcon
    rcases List.append_eq_nil.mp hcon with ⟨_, h2⟩
    cases h2
  have hghl : getHeaderLength L = GoRes.ok fh.length := by
    unfold getHeaderLength
    rw [hLdef, getHeaderLengthAux_prefix fh hdr _ 0 (fun l hl => (hfh l hl).1)
      (mkHeader_take_two a b c _ ctx), Nat.zero_add]
  have htgt2 : tgt.take 2 ≠ atatStr := take_two_ne_atat tgt htgt
  have hb1 : ∀ l ∈ body1, l.take 2 ≠ atatStr :=
    fun l hl => (hb l (List.mem_append.mpr (Or.inl hl))).1
  have hshape : bodyAll ++ rest = body1 ++ tgt :: (body2 ++ rest) := by
    rw [hbodydef]
    simp
  have hghs : getHunkStart L ln = GoRes.ok fh.length := by
    rw [hLdef, hlndef, hshape]
    exact getHunkStart_structured fh hdr body1 tgt (body2 ++ rest)
      (fun l hl => (hfh l hl).1) (mkHeader_take_two a b c _ ctx) hb1 htgt2
  have hgetD : L.getD fh.length [] = hdr := by
    rw [hLdef]
    exact getD_append_length fh hdr _
  have hdrop : L.drop (fh.length + 1) = bodyAll ++ rest := by
    rw [hLdef]
    exact drop_append_length_succ fh hdr _
  have hbAt : ∀ l ∈ bodyAll, l.take 2 ≠ atatStr := fun l hl => (hb l hl).1
  have hlen1 : ln - ((fh.length + 1 : Nat) : Int) = (body1.length : Int) := by
    rw [hlndef]
    push_cast
    ring
  have hloop : singleLineLoop ln (fh.length + 1) (bodyAll ++ rest) =
      (stageOneTransform ((body1.length : Int)) bodyAll ++
        (if rest = [] then [] else [['\n']]),
       stageOneChanges ((body1.length : Int)) bodyAll) := by
    rw [singleLineLoop_split ln rest bodyAll hbAt (fh.length + 1),
      singleLineLoop_rest ln _ rest hrest, hlen1]
    simp
  have hupd : updatedHeader hdr (stageOneChanges ((body1.length : Int)) bodyAll) =
      GoRes.ok (mkHeader a b c (intToDigits ((d : Int) +
        stageOneChanges ((body1.length : Int)) bodyAll)) ctx) := by
    rw [hhdrdef]
    exact updatedHeader_mkHeader a b c d ctx _ hdmax hlo hhi hctxf
  have hdef : getModifiedHunkForSingleLine L fh.length ln =
      (match updatedHeader (L.getD fh.length [])
          (singleLineLoop ln (fh.length + 1) (L.drop (fh.length + 1))).2 with
       | GoRes.ok newHeader =>
          GoRes.ok (newHeader ::
            (singleLineLoop ln (fh.length + 1) (L.drop (fh.length + 1))).1)
       | GoRes.err e => GoRes.err e
       | GoRes.panicked => GoRes.panicked) := rfl
  have hmod : getModifiedHunkForSingleLine L fh.length ln =
      GoRes.ok (mkHeader a b c (intToDigits ((d : Int) +
          stageOneChanges ((body1.length : Int)) bodyAll)) ctx ::
        (stageOneTransform ((body1.length : Int)) bodyAll ++
          (if rest = [] then [] else [['\n']]))) := by
    rw [hdef, hgetD, hdrop, hloop]
    simp only [hupd]
  have htake : L.take fh.length = fh := by
    rw [hLdef]
    exact take_append_length fh _
  simp only [ObtainPatchForLine, hsplit, hghl, hghs, hmod, htake]

/-- Witness for claim C2: the amended theorem applied to a concrete one-hunk
diff whose target is an addition line. -/
theorem claim_C2_witness :
    ObtainPatchForLine
        (joinNL ([("--- f".data)] ++ mkHeader 1 2 1 (natToDigits 3) [] ::
          (([(" a".data)] ++ ("+b".data) :: [(" c".data), []]) ++ [])))
        ((([("--- f".data)] : List Str).length : Int) + 1 +
          ([(" a".data)] : List Str).length) =
      GoRes.ok
        (joinNL [("--- f".data)] ++ '\n' ::
          joinNL (mkHeader 1 2 1 (intToDigits ((3 : Int) +
              stageOneChanges ((([(" a".data)] : List Str).length : Int))
                ([(" a".data)] ++ ("+b".data) :: [(" c".data), []]))) [] ::
            (stageOneTransform ((([(" a".data)] : List Str).length : Int))
                ([(" a".data)] ++ ("+b".data) :: [(" c".data), []]) ++
              (if ([] : List Str) = [] then [] else [['\n']])))) :=
  claim_C2_amended [("--- f".data)] (by decide) 1 2 1 3 [] (by decide) (by decide)
    (by decide) [(" a".data)] ("+b".data) [(" c".data), []] (by decide) (by decide)
    [] (Or.inl rfl) (by decide) (by decide) (by decide)

/-- Claim C3: for every structured diff (file header, well-formed hunk header
with post-image count d and context free of the digits-at-at pattern, hunk
body, optional following hunk) and target body line carrying a change marker,
ObtainPatchForHunkWithoutLine rewrites only the target line — demoting it to a
context line with lineChanges plus one when it is a removal, dropping it with
lineChanges minus one when it is an addition — while every other body line,
including other removals and additions, passes through byte for byte, and the
header's post-image count becomes d plus lineChanges by the same rule. -/
theorem claim_C3
    (fh : List Str) (hfh : ∀ l ∈ fh, l.take 2 ≠ atatStr ∧ '\n' ∉ l)
    (a b c d : Nat) (ctx : Str) (hctxf : findFirstNum ctx = none) (hctxn : '\n' ∉ ctx)
    (hdmax : (d : Int) ≤ i64Max)
    (body1 : List Str) (tgt : Str) (body2 : List Str)
    (hb : ∀ l ∈ body1 ++ tgt :: body2, l.take 2 ≠ atatStr ∧ '\n' ∉ l)
    (htgt : tgt.take 1 = ['-'] ∨ tgt.take 1 = ['+'])
    (rest : List Str)
    (hrest : rest = [] ∨ ∃ r rs, rest = r :: rs ∧ r.take 2 = atatStr)
    (hrestn : ∀ l ∈ rest, '\n' ∉ l)
    (hlo : -(2 : Int) ^ 63 ≤ (d : Int) +
      dropOneChanges ((body1.length : Int)) (body1 ++ tgt :: body2))
    (hhi : (d : Int) +
      dropOneChanges ((body1.length : Int)) (body1 ++ tgt :: body2) < 2 ^ 63) :
    ObtainPatchForHunkWithoutLine
        (joinNL (fh ++ mkHeader a b c (natToDigits d) ctx ::
          ((body1 ++ tgt :: body2) ++ rest)))
        ((fh.length : Int) + 1 + body1.length) =
      GoRes.ok
        (joinNL fh ++ '\n' ::
          joinNL (mkHeader a b c (intToDigits ((d : Int) +
              dropOneChanges ((body1.length : Int)) (body1 ++ tgt :: body2))) ctx ::
            (dropOneTransform ((body1.length : Int)) (body1 ++ tgt :: body2) ++
              (if rest = [] then [] else [['\n']])))) := by
  set hdr := mkHeader a b c (natToDigits d) ctx with hhdrdef
  set bodyAll := body1 ++ tgt :: body2 with hbodydef
  set L := fh ++ hdr :: (bodyAll ++ rest) with hLdef
  set ln : Int := (fh.length : Int) + 1 + body1.length with hlndef
  have hnlhdr : '\n' ∉ hdr :=
    nl_not_mem_mkHeader a b c _ ctx (nl_not_mem_natToDigits d) hctxn
  have hLnl : ∀ l ∈ L, '\n' ∉ l := by
    intro l hl
    rw [hLdef] at hl
    rcases List.mem_append.mp hl with h | h
    · exact (hfh l h).2
    · rcases List.mem_cons.mp h with rfl | h
      · exact hnlhdr
      · rcases List.mem_append.mp h with h | h
        · exact (hb l h).2
        · exact hrestn l h
  have hsplit : splitNL (joinNL L) = L := by
    apply splitNL_joinNL L ?_ hLnl
    rw [hLdef]
    intro hcon
    rcases List.append_eq_nil.mp hcon with ⟨_, h2⟩
    cases h2
  have hghl : getHeaderLength L = GoRes.ok fh.length := by
    unfold getHeaderLength
    rw [hLdef, getHeaderLengthAux_prefix fh hdr _ 0 (fun l hl => (hfh l hl).1)
      (mkHeader_take_two a b c _ ctx), Nat.zero_add]
  have htgt2 : tgt.take 2 ≠ atatStr := take_two_ne_atat tgt htgt
  have hb1 : ∀ l ∈ body1, l.take 2 ≠ atatStr :=
    fun l hl => (hb l (List.mem_append.mpr (Or.inl hl))).1
  have hshape : bodyAll ++ rest = body1 ++ tgt :: (body2 ++ rest) := by
    rw [hbodydef]
    simp
  have hghs : getHunkStart L ln = GoRes.ok fh.length := by
    rw [hLdef, hlndef, hshape]
    exact getHunkStart_structured fh hdr body1 tgt (body2 ++ rest)
      (fun l hl => (hfh l hl).1) (mkHeader_take_two a b c _ ctx) hb1 htgt2
  have hgetD : L.getD fh.length [] = hdr := by
    rw [hLdef]
    exact getD_append_length fh hdr _
  have hdrop : L.drop (fh.length + 1) = bodyAll ++ rest := by
    rw [hLdef]
    exact drop_append_length_succ fh hdr _
  have hbAt : ∀ l ∈ bodyAll, l.take 2 ≠ atatStr := fun l hl => (hb l hl).1
  have hlen1 : ln - ((fh.length + 1 : Nat) : Int) = (body1.length : Int) := by
    rw [hlndef]
    push_cast
    ring
  have hloop : removedLineLoop ln (fh.length + 1) (-1) (bodyAll ++ rest) =
      (dropOneTransform ((body1.length : Int)) bodyAll ++
        (if rest = [] then [] else [['\n']]),
       dropOneChanges ((body1.length : Int)) bodyAll) := by
    rw [removedLineLoop_split ln rest bodyAll hbAt (fh.length + 1) (-1),
      removedLineLoop_rest ln _ 0 rest hrest, hlen1]
    simp
  have hupd : updatedHeader hdr (dropOneChanges ((body1.length : Int)) bodyAll) =
      GoRes.ok (mkHeader a b c (intToDigits ((d : Int) +
        dropOneChanges ((body1.length : Int)) bodyAll)) ctx) := by
    rw [hhdrdef]
    exact updatedHeader_mkHeader a b c d ctx _ hdmax hlo hhi hctxf
  have hdef : getModifiedHunkForRemovedLine L fh.length ln =
      (match updatedHeader (L.getD fh.length [])
          (removedLineLoop ln (fh.length + 1) (-1) (L.drop (fh.length + 1))).2 with
       | GoRes.ok newHeader =>
          GoRes.ok (newHeader ::
            (removedLineLoop ln (fh.length + 1) (-1) (L.drop (fh.length + 1))).1)
       | GoRes.err e => GoRes.err e
       | GoRes.panicked => GoRes.panicked) := rfl
  have hmod : getModifiedHunkForRemovedLine L fh.length ln =
      GoRes.ok (mkHeader a b c (intToDigits ((d : Int) +
          dropOneChanges ((body1.length : Int)) bodyAll)) ctx ::
        (dropOneTransform ((body1.length : Int)) bodyAll ++
          (if rest = [] then [] else [['\n']]))) := by
    rw [hdef, hgetD, hdrop, hloop]
    simp only [hupd]
  have htake : L.take fh.length = fh := by
    rw [hLdef]
    exact take_append_length fh _
  simp only [ObtainPatchForHunkWithoutLine, hsplit, hghl, hghs, hmod, htake]

/-- Witness for claim C3: the theorem applied to a concrete one-hunk diff with
a removal target among other changes. -/
theorem claim_C3_witness :
    ObtainPatchForHunkWithoutLine
        (joinNL ([("--- f".data)] ++ mkHeader 1 2 1 (natToDigits 2) [] ::
          (([("-x".data)] ++ ("-y".data) :: [("+z".data), []]) ++ [])))
        ((([("--- f".data)] : List Str).length : Int) + 1 +
          ([("-x".data)] : List Str).length) =
      GoRes.ok
        (joinNL [("--- f".data)] ++ '\n' ::
          joinNL (mkHeader 1 2 1 (intToDigits ((2 : Int) +
              dropOneChanges ((([("-x".data)] : List Str).length : Int))
                ([("-x".data)] ++ ("-y".data) :: [("+z".data), []]))) [] ::
            (dropOneTransform ((([("-x".data)] : List Str).length : Int))
                ([("-x".data)] ++ ("-y".data) :: [("+z".data), []]) ++
              (if ([] : List Str) = [] then [] else [['\n']])))) :=
  claim_C3 [("--- f".data)] (by decide) 1 2 1 2 [] (by decide) (by decide)
    (by decide) [("-x".data)] ("-y".data) [("+z".data), []] (by decide) (by decide)
    [] (Or.inl rfl) (by decide) (by decide) (by decide)

/- ------------- claim C6: ObtainPatchForHunk slicing --------------------- -/

theorem mem_take_getD (xs : List Str) (n : Nat) (l : Str) (h : l ∈ xs.take n) :
    ∃ j, j < n ∧ j < xs.length ∧ xs.getD j [] = l := by
  rcases List.mem_iff_getElem.mp h with ⟨j, hj, hl⟩
  have hjb : j < n ∧ j < xs.length := by
    rw [List.length_take] at hj
    omega
  refine ⟨j, hjb.1, hjb.2, ?_⟩
  rw [List.getD_eq_getElem xs [] hjb.2, ← hl]
  exact (List.getElem_take xs).symm

theorem getHeaderLength_first (lines : List Str) (p : Nat) (hp : p < lines.length)
    (hat : (lines.getD p []).take 2 = atatStr)
    (hbefore : ∀ l ∈ lines.take p, l.take 2 ≠ atatStr) :
    getHeaderLength lines = GoRes.ok p := by
  have hlen : (lines.take p).length = p := by rw [List.length_take]; omega
  have hdec : lines = lines.take p ++ lines.getD p [] :: lines.drop (p + 1) := by
    conv_lhs => rw [← List.take_append_drop p lines]
    rw [List.drop_eq_getElem_cons hp, List.getD_eq_getElem lines [] hp]
  have h1 : getHeaderLengthAux 0 lines = some p := by
    conv_lhs => rw [hdec]
    rw [ getHeaderLengthAux_prefix (lines.take p) _ _ 0 hbefore hat, Nat.zero_add, hlen]
  unfold getHeaderLength
  rw [h1]

theorem countP_slice_atat (lines : List Str) (s e : Nat) (hse : s < e) (hel : e ≤ lines.length)
    (hsat : (lines.getD s []).take 2 = atatStr)
    (hint : ∀ j, s < j → j < e → (lines.getD j []).take 2 ≠ atatStr) :
    ((lines.take e).drop s).countP (fun l => decide (l.take 2 = atatStr)) = 1 := by
  have hslen : s < (lines.take e).length := by rw [List.length_take]; omega
  have hsl : s < lines.length := by omega
  have hdec : (lines.take e).drop s = lines.getD s [] :: (lines.take e).drop (s + 1) := by
    rw [List.drop_eq_getElem_cons hslen]
    congr 1
    rw [List.getD_eq_getElem lines [] hsl]
    exact List.getElem_take lines
  rw [hdec, List.countP_cons]
  have h0 : ((lines.take e).drop (s + 1)).countP (fun l => decide (l.take 2 = atatStr)) = 0 := by
    rw [List.countP_eq_zero]
    intro l hl
    rcases List.mem_iff_getElem.mp hl with ⟨r, hr, hleq⟩
    have hrb : s + 1 + r < e := by
      rw [List.length_drop, List.length_take] at hr
      omega
    have hval : l = lines.getD (s + 1 + r) [] := by
      rw [← hleq, List.getElem_drop, List.getElem_take,
        List.getD_eq_getElem lines [] (by omega : s + 1 + r < lines.length)]
    simp only [decide_eq_true_eq]
    rw [hval]
    exact hint (s + 1 + r) (by omega) hrb
  rw [h0, hsat]
  simp

/-- Claim C6: over a diff given as its newline-free line list (ending in the
empty fragment produced by the trailing newline), with H the strictly
increasing table of exactly the at-at hunk-start line indices and L a line
index lying strictly inside hunk k — after that hunk's start line, before the
next hunk start and before the final empty line — ObtainPatchForHunk returns
exactly the file header lines before the first hunk start followed by exactly
the lines of hunk k, from its start line up to (exclusive) the next hunk start
or, for the last hunk, the final line of the diff, each line untouched; and
the header-plus-hunk line list contains exactly one at-at line. -/
theorem claim_C6 (lines : List Str) (H : List Int) (L : Int) (k : Nat)
    (hnl : ∀ l ∈ lines, '\n' ∉ l)
    (hch : List.Chain' (· < ·) H)
    (hHpos : ∀ j, j < H.length → 0 ≤ H.getD j 0 ∧ (H.getD j 0).toNat < lines.length ∧
      (lines.getD (H.getD j 0).toNat []).take 2 = atatStr)
    (hHall : ∀ i, i < lines.length → (lines.getD i []).take 2 = atatStr →
      (i : Int) ∈ H)
    (hk : k < H.length)
    (hklo : H.getD k 0 < L)
    (hkhi : k + 1 < H.length → L < H.getD (k + 1) 0)
    (hL : L < (lines.length : Int) - 1)
    (hlast : lines.getD (lines.length - 1) [] = []) :
    ObtainPatchForHunk (joinNL lines) H L =
      GoRes.ok (joinNL (lines.take (H.getD 0 0).toNat) ++ '\n' ::
        (joinNL ((lines.take (if k + 1 = H.length then lines.length - 1
            else (H.getD (k + 1) 0).toNat)).drop (H.getD k 0).toNat) ++ ['\n'])) ∧
    (lines.take (H.getD 0 0).toNat ++
        (lines.take (if k + 1 = H.length then lines.length - 1
          else (H.getD (k + 1) 0).toNat)).drop (H.getD k 0).toNat).countP
      (fun l => decide (l.take 2 = atatStr)) = 1 := by
  have h0len : 0 < H.length := by omega
  obtain ⟨h01, h02, h03⟩ := hHpos 0 h0len
  obtain ⟨hk1, hk2, hk3⟩ := hHpos k hk
  have hlen0 : 0 < lines.length := by omega
  have hne : lines ≠ [] := List.length_pos.mp hlen0
  have hprev : PrevIndex H L = k :=
    PrevIndex_sorted H L k hch hk hklo (fun h => le_of_lt (hkhi h))
  have hnext : NextIndex H L = (if k + 1 = H.length then 0 else k + 1) :=
    NextIndex_sorted H L k hch hk (le_of_lt hklo) hkhi
  have hbefore : ∀ l ∈ lines.take (H.getD 0 0).toNat, l.take 2 ≠ atatStr := by
    intro l hl hatl
    rcases mem_take_getD lines _ l hl with ⟨j, hj1, hj2, hj3⟩
    rcases List.mem_iff_getElem.mp (hHall j hj2 (by rw [hj3]; exact hatl)) with
      ⟨j2, hj2l, hj2e⟩
    have hj2e2 : H.getD j2 0 = (j : Int) := by
      rw [List.getD_eq_getElem H 0 hj2l]
      exact hj2e
    have hle : H.getD 0 0 ≤ H.getD j2 0 := chain_getD_le H hch 0 j2 (by omega) hj2l
    omega
  have hghl : getHeaderLength lines = GoRes.ok (H.getD 0 0).toNat :=
    getHeaderLength_first lines _ h02 h03 hbefore
  have hsj : splitNL (joinNL lines) = lines := splitNL_joinNL lines hne hnl
  refine ⟨?_, ?_⟩
  · simp only [ObtainPatchForHunk, hsj, hghl, hprev, hnext]
    by_cases hlk : k + 1 = H.length
    · have hE : ((lines.length : Int) - 1).toNat = lines.length - 1 := by omega
      simp only [hlk, eq_self_iff_true, if_true, hE]
    · have hnz : ¬(k + 1 = 0) := by omega
      simp only [if_neg hlk, if_neg hnz]
  · rw [List.countP_append]
    have hz : (lines.take (H.getD 0 0).toNat).countP
        (fun l => decide (l.take 2 = atatStr)) = 0 := by
      rw [List.countP_eq_zero]
      intro l hl
      simp only [decide_eq_true_eq]
      exact hbefore l hl
    have hse : (H.getD k 0).toNat < (if k + 1 = H.length then lines.length - 1
        else (H.getD (k + 1) 0).toNat) := by
      by_cases hlk : k + 1 = H.length
      · rw [if_pos hlk]
        omega
      · rw [if_neg hlk]
        have hlt := chain_getD_lt H hch k (k + 1) (by omega) (by omega)
        have h4 := (hHpos (k + 1) (by omega)).1
        omega
    have hel : (if k + 1 = H.length then lines.length - 1
        else (H.getD (k + 1) 0).toNat) ≤ lines.length := by
      by_cases hlk : k + 1 = H.length
      · rw [if_pos hlk]
        omega
      · rw [if_neg hlk]
        have h5 := (hHpos (k + 1) (by omega)).2.1
        omega
    have hint : ∀ j, (H.getD k 0).toNat < j →
        j < (if k + 1 = H.length then lines.length - 1
          else (H.getD (k + 1) 0).toNat) →
        (lines.getD j []).take 2 ≠ atatStr := by
      intro j hj1 hj2 hatj
      have hjlen : j < lines.length := by omega
      rcases List.mem_iff_getElem.mp (hHall j hjlen hatj) with ⟨j2, hj2l, hj2e⟩
      have hj2e2 : H.getD j2 0 = (j : Int) := by
        rw [List.getD_eq_getElem H 0 hj2l]
        exact hj2e
      have hj2k : k < j2 := by
        by_contra hle
        push_neg at hle
        have := chain_getD_le H hch j2 k hle hk
        omega
      by_cases hlk : k + 1 = H.length
      · omega
      · rw [if_neg hlk] at hj2
        have hge : H.getD (k + 1) 0 ≤ H.getD j2 0 :=
          chain_getD_le H hch (k + 1) j2 (by omega) hj2l
        have h4 := (hHpos (k + 1) (by omega)).1
        omega
    rw [hz, countP_slice_atat lines (H.getD k 0).toNat _ hse hel hk3 hint]

/-- Witness for claim C6: a two-hunk diff with the cursor on the removal line
inside the first hunk, so the slice runs from the first hunk start up to the
second. -/
theorem claim_C6_witness :
    ObtainPatchForHunk
        (joinNL [("--- a".data), ("@@ -1,2 +1,2 @@".data), ("-x".data), (" y".data),
          ("@@ -9,1 +9,1 @@".data), ("+z".data), ([] : Str)]) [1, 4] 2 =
      GoRes.ok (joinNL ([("--- a".data), ("@@ -1,2 +1,2 @@".data), ("-x".data), (" y".data),
          ("@@ -9,1 +9,1 @@".data), ("+z".data), ([] : Str)].take 1) ++ '\n' ::
        (joinNL (([("--- a".data), ("@@ -1,2 +1,2 @@".data), ("-x".data), (" y".data),
          ("@@ -9,1 +9,1 @@".data), ("+z".data), ([] : Str)].take 4).drop 1) ++ ['\n'])) ∧
    ([("--- a".data), ("@@ -1,2 +1,2 @@".data), ("-x".data), (" y".data),
        ("@@ -9,1 +9,1 @@".data), ("+z".data), ([] : Str)].take 1 ++
      ([("--- a".data), ("@@ -1,2 +1,2 @@".data), ("-x".data), (" y".data),
        ("@@ -9,1 +9,1 @@".data), ("+z".data), ([] : Str)].take 4).drop 1).countP
      (fun l => decide (l.take 2 = atatStr)) = 1 :=
  claim_C6 [("--- a".data), ("@@ -1,2 +1,2 @@".data), ("-x".data), (" y".data),
      ("@@ -9,1 +9,1 @@".data), ("+z".data), ([] : Str)] [1, 4] 2 0
    (by decide) (by norm_num [List.chain'_cons, List.chain'_singleton])
    (by decide) (by decide) (by decide) (by decide) (by decide) (by decide) (by decide)
